import Mathlib

/-!
Verification of the job-board normalization/filter pipeline (`app.py`).

The Python source is shallowly embedded: strings are `List Char`, dicts of
job fields are a structure of `Option String` fields, floats are `ℚ`,
`datetime` values are a record of numeric components, and the single
in-place mutation in the code (`filtered.sort()` aliasing the caller's
list) is made explicit by returning the post-call state of the input list.
-/

namespace JobBoard

/-! ### List helpers -/

theorem length_dropWhile_le (p : α → Bool) (l : List α) :
    (l.dropWhile p).length ≤ l.length := by
  induction l with
  | nil => simp
  | cons a l ih =>
    by_cases h : p a
    · rw [List.dropWhile_cons_of_pos h]; exact Nat.le_trans ih (by simp)
    · rw [List.dropWhile_cons_of_neg h]

/-! ### Python character classes

`str.split()` splits on the Unicode whitespace characters below (the set for
which Python's `str.isspace` holds), and `str.splitlines()` breaks at the
line-boundary characters below. -/

def pyIsSpace (c : Char) : Bool :=
  (0x09 ≤ c.val && c.val ≤ 0x0d) || (0x1c ≤ c.val && c.val ≤ 0x1f) ||
  c.val == 0x20 || c.val == 0x85 || c.val == 0xa0 || c.val == 0x1680 ||
  (0x2000 ≤ c.val && c.val ≤ 0x200a) || c.val == 0x2028 || c.val == 0x2029 ||
  c.val == 0x202f || c.val == 0x205f || c.val == 0x3000

def isLineBreak (c : Char) : Bool :=
  c.val == 0x0a || c.val == 0x0d || c.val == 0x0b || c.val == 0x0c ||
  c.val == 0x1c || c.val == 0x1d || c.val == 0x1e || c.val == 0x85 ||
  c.val == 0x2028 || c.val == 0x2029

theorem pyIsSpace_of_isLineBreak {c : Char} (h : isLineBreak c = true) :
    pyIsSpace c = true := by
  simp only [isLineBreak, Bool.or_eq_true, beq_iff_eq] at h
  rcases h with ((((((((h | h) | h) | h) | h) | h) | h) | h) | h) | h <;>
    simp_all [pyIsSpace]

/-! ### `_BR_RE = re.compile(r"<\\s*br\\s*/?\\s*>", re.IGNORECASE)`

The source uses a *raw* string with doubled backslashes, so the compiled
pattern contains the regex escapes `\\` (a literal backslash) and the
literal letters `s*`: the pattern is `<` `\` `s`* `b` `r` `\` `s`* `/`?
`\` `s`* `>` (letters case-insensitive).  `brLen cs` returns the length of
a match of everything after the `<`, if the pattern matches at the head of
`cs`; case-insensitivity is modelled over ASCII, which covers every
character the pattern can mention. -/

def isS (c : Char) : Bool := c == 's' || c == 'S'

def countS (cs : List Char) : Nat := (cs.takeWhile isS).length

def brLen (cs : List Char) : Option Nat :=
  if cs.head? = some '\\' then
    let r1 := cs.drop 1
    let s1 := countS r1
    let r2 := r1.drop s1
    if (r2.head? = some 'b' ∨ r2.head? = some 'B') ∧
        ((r2.drop 1).head? = some 'r' ∨ (r2.drop 1).head? = some 'R') then
      let r3 := r2.drop 2
      if r3.head? = some '\\' then
        let r4 := r3.drop 1
        let s2 := countS r4
        let r5 := r4.drop s2
        let slash := if r5.head? = some '/' then 1 else 0
        let r6 := r5.drop slash
        if r6.head? = some '\\' then
          let r7 := r6.drop 1
          let s3 := countS r7
          if (r7.drop s3).head? = some '>' then
            some (1 + s1 + 2 + 1 + s2 + slash + 1 + s3 + 1)
          else none
        else none
      else none
    else none
  else none

/-- Fuel-indexed scanner for `brSub` (structural recursion keeps every
definition kernel-computable; the fuel never runs out when it starts at
the input length, see `brSub_cons`). -/
def brSubF : Nat → List Char → List Char
  | 0, cs => cs
  | _ + 1, [] => []
  | fuel + 1, c :: rest =>
    if c = '<' then
      match brLen rest with
      | some n => '\n' :: brSubF fuel (rest.drop n)
      | none => c :: brSubF fuel rest
    else c :: brSubF fuel rest

/-- `_BR_RE.sub("\n", value)`: replace every (leftmost, non-overlapping)
match of the pattern above with a newline. -/
def brSub (cs : List Char) : List Char := brSubF cs.length cs

theorem brSubF_nil (f : Nat) : brSubF f [] = [] := by cases f <;> rfl

theorem brSubF_congr : ∀ (f g : Nat) (cs : List Char), cs.length ≤ f →
    cs.length ≤ g → brSubF f cs = brSubF g cs := by
  intro f
  induction f with
  | zero =>
    intro g cs hf _
    have : cs = [] := List.length_eq_zero.mp (Nat.le_zero.mp hf)
    subst this
    simp [brSubF_nil, brSubF]
  | succ f ih =>
    intro g cs hf hg
    cases cs with
    | nil => simp [brSubF_nil]
    | cons c rest =>
      cases g with
      | zero => simp at hg
      | succ g =>
        simp only [brSubF]
        simp at hf hg
        cases hn : brLen rest with
        | some n =>
          have hd : (rest.drop n).length ≤ rest.length := by
            simp [List.length_drop]
          simp only
          rw [ih g (rest.drop n) (by omega) (by omega), ih g rest (by omega) (by omega)]
        | none =>
          simp only
          rw [ih g rest (by omega) (by omega)]

theorem brSub_nil : brSub [] = [] := rfl

/-- The recursion `brSub` satisfies, in the shape of the Python scan. -/
theorem brSub_cons (c : Char) (rest : List Char) :
    brSub (c :: rest) =
      if c = '<' then
        match brLen rest with
        | some n => '\n' :: brSub (rest.drop n)
        | none => c :: brSub rest
      else c :: brSub rest := by
  show brSubF (rest.length + 1) (c :: rest) = _
  simp only [brSubF]
  cases hn : brLen rest with
  | some n =>
    simp only
    rw [brSubF_congr rest.length (rest.drop n).length (rest.drop n)
      (by simp [List.length_drop]) (le_refl _)]
    rfl
  | none =>
    simp only
    rfl

/-! ### `_TAG_RE = re.compile(r"<[^>]+>")`

A match at a `<` runs to the first following `>`, provided at least one
character lies strictly between them.  `splitGt cs` splits `cs` at its
first `>`. -/

def splitGt : List Char → Option (List Char × List Char)
  | [] => none
  | c :: rest =>
    if c = '>' then some ([], rest)
    else (splitGt rest).map (fun p => (c :: p.1, p.2))

theorem splitGt_length : ∀ {cs inner after : List Char},
    splitGt cs = some (inner, after) → cs.length = inner.length + 1 + after.length := by
  intro cs
  induction cs with
  | nil => intro inner after h; simp [splitGt] at h
  | cons c rest ih =>
    intro inner after h
    by_cases hc : c = '>'
    · simp only [splitGt, if_pos hc, Option.some.injEq, Prod.mk.injEq] at h
      obtain ⟨h1, h2⟩ := h
      subst h1; subst h2; simp; omega
    · simp only [splitGt, if_neg hc, Option.map_eq_some'] at h
      obtain ⟨p, hp, hpe⟩ := h
      have : rest.length = p.1.length + 1 + p.2.length := ih (by rw [hp])
      injection hpe with h1 h2
      subst h1; subst h2
      simp [this]; omega

/-- Fuel-indexed scanner for `tagSub`. -/
def tagSubF : Nat → List Char → List Char
  | 0, cs => cs
  | _ + 1, [] => []
  | fuel + 1, c :: rest =>
    if c = '<' then
      match splitGt rest with
      | some (inner, after) =>
        if inner = [] then c :: tagSubF fuel rest else ' ' :: tagSubF fuel after
      | none => c :: tagSubF fuel rest
    else c :: tagSubF fuel rest

/-- `_TAG_RE.sub(" ", text)`: replace every tag match with a single space.
A match at a `<` runs to the first `>` after it, and needs a non-empty
inner part; on a failed attempt the scan advances one character. -/
def tagSub (cs : List Char) : List Char := tagSubF cs.length cs

theorem tagSubF_nil (f : Nat) : tagSubF f [] = [] := by cases f <;> rfl

theorem tagSubF_congr : ∀ (f g : Nat) (cs : List Char), cs.length ≤ f →
    cs.length ≤ g → tagSubF f cs = tagSubF g cs := by
  intro f
  induction f with
  | zero =>
    intro g cs hf _
    have : cs = [] := List.length_eq_zero.mp (Nat.le_zero.mp hf)
    subst this
    simp [tagSubF_nil, tagSubF]
  | succ f ih =>
    intro g cs hf hg
    cases cs with
    | nil => simp [tagSubF_nil]
    | cons c rest =>
      cases g with
      | zero => simp at hg
      | succ g =>
        simp only [tagSubF]
        simp at hf hg
        cases hn : splitGt rest with
        | some p =>
          obtain ⟨inner, after⟩ := p
          have hlen := splitGt_length hn
          simp only
          rw [ih g rest (by omega) (by omega), ih g after (by omega) (by omega)]
        | none =>
          simp only
          rw [ih g rest (by omega) (by omega)]

theorem tagSub_nil : tagSub [] = [] := rfl

theorem tagSub_cons (c : Char) (rest : List Char) :
    tagSub (c :: rest) =
      if c = '<' then
        match splitGt rest with
        | some (inner, after) =>
          if inner = [] then c :: tagSub rest else ' ' :: tagSub after
        | none => c :: tagSub rest
      else c :: tagSub rest := by
  show tagSubF (rest.length + 1) (c :: rest) = _
  simp only [tagSubF]
  cases hn : splitGt rest with
  | some p =>
    obtain ⟨inner, after⟩ := p
    have hlen := splitGt_length hn
    simp only
    rw [tagSubF_congr rest.length after.length after (by omega) (le_refl _)]
    rfl
  | none =>
    simp only
    rfl

/-! ### `html.unescape`

Modelled from the Python standard library (not part of this repository):
a string without `&` is returned unchanged (the stdlib guard) and named
character references are decoded from a table.  The table is restricted to
the semicolon-terminated references relevant here; the full HTML5 table
has the same shape. -/

def entityTable : List (List Char × List Char) :=
  [("amp;".data, "&".data), ("lt;".data, "<".data), ("gt;".data, ">".data),
   ("quot;".data, "\"".data), ("nbsp;".data, " ".data)]

/-- Look for a named character reference right after a `&`; returns the
replacement and the number of characters consumed. -/
def lookupEntity (cs : List Char) : Option (List Char × Nat) :=
  (entityTable.find? (fun e => e.1.isPrefixOf cs)).map (fun e => (e.2, e.1.length))

def unescapeScanF : Nat → List Char → List Char
  | 0, cs => cs
  | _ + 1, [] => []
  | fuel + 1, c :: rest =>
    if c = '&' then
      match lookupEntity rest with
      | some (rep, n) => rep ++ unescapeScanF fuel (rest.drop n)
      | none => c :: unescapeScanF fuel rest
    else c :: unescapeScanF fuel rest

def unescapeScan (cs : List Char) : List Char := unescapeScanF cs.length cs

theorem unescapeScanF_nil (f : Nat) : unescapeScanF f [] = [] := by cases f <;> rfl

theorem unescapeScanF_congr : ∀ (f g : Nat) (cs : List Char), cs.length ≤ f →
    cs.length ≤ g → unescapeScanF f cs = unescapeScanF g cs := by
  intro f
  induction f with
  | zero =>
    intro g cs hf _
    have : cs = [] := List.length_eq_zero.mp (Nat.le_zero.mp hf)
    subst this
    simp [unescapeScanF_nil, unescapeScanF]
  | succ f ih =>
    intro g cs hf hg
    cases cs with
    | nil => simp [unescapeScanF_nil]
    | cons c rest =>
      cases g with
      | zero => simp at hg
      | succ g =>
        simp only [unescapeScanF]
        simp at hf hg
        cases hn : lookupEntity rest with
        | some p =>
          obtain ⟨rep, n⟩ := p
          have hd : (rest.drop n).length ≤ rest.length := by
            simp [List.length_drop]
          simp only
          rw [ih g (rest.drop n) (by omega) (by omega), ih g rest (by omega) (by omega)]
        | none =>
          simp only
          rw [ih g rest (by omega) (by omega)]

theorem unescapeScan_nil : unescapeScan [] = [] := rfl

theorem unescapeScan_cons (c : Char) (rest : List Char) :
    unescapeScan (c :: rest) =
      if c = '&' then
        match lookupEntity rest with
        | some (rep, n) => rep ++ unescapeScan (rest.drop n)
        | none => c :: unescapeScan rest
      else c :: unescapeScan rest := by
  show unescapeScanF (rest.length + 1) (c :: rest) = _
  simp only [unescapeScanF]
  cases hn : lookupEntity rest with
  | some p =>
    obtain ⟨rep, n⟩ := p
    simp only
    rw [unescapeScanF_congr rest.length (rest.drop n).length (rest.drop n)
      (by simp [List.length_drop]) (le_refl _)]
    rfl
  | none =>
    simp only
    rfl

def pyUnescape (cs : List Char) : List Char :=
  if '&' ∈ cs then unescapeScan cs else cs

/-! ### Whitespace normalization

`lines = [" ".join(line.split()) for line in text.splitlines()]` followed by
`"\n".join([line for line in lines if line])`. -/

def pySplitF : Nat → List Char → List (List Char)
  | 0, _ => []
  | _ + 1, [] => []
  | fuel + 1, c :: rest =>
    if pyIsSpace c then pySplitF fuel rest
    else (c :: rest.takeWhile (fun x => !pyIsSpace x)) ::
      pySplitF fuel (rest.dropWhile (fun x => !pyIsSpace x))

def pySplit (cs : List Char) : List (List Char) := pySplitF cs.length cs

theorem pySplitF_nil (f : Nat) : pySplitF f [] = [] := by cases f <;> rfl

theorem pySplitF_congr : ∀ (f g : Nat) (cs : List Char), cs.length ≤ f →
    cs.length ≤ g → pySplitF f cs = pySplitF g cs := by
  intro f
  induction f with
  | zero =>
    intro g cs hf _
    have : cs = [] := List.length_eq_zero.mp (Nat.le_zero.mp hf)
    subst this
    simp [pySplitF_nil, pySplitF]
  | succ f ih =>
    intro g cs hf hg
    cases cs with
    | nil => simp [pySplitF_nil]
    | cons c rest =>
      cases g with
      | zero => simp at hg
      | succ g =>
        simp only [pySplitF]
        simp at hf hg
        have hd := length_dropWhile_le (fun x => !pyIsSpace x) rest
        rw [ih g rest (by omega) (by omega),
          ih g (rest.dropWhile (fun x => !pyIsSpace x)) (by omega) (by omega)]

theorem pySplit_nil : pySplit [] = [] := rfl

theorem pySplit_cons (c : Char) (rest : List Char) :
    pySplit (c :: rest) =
      if pyIsSpace c then pySplit rest
      else (c :: rest.takeWhile (fun x => !pyIsSpace x)) ::
        pySplit (rest.dropWhile (fun x => !pyIsSpace x)) := by
  show pySplitF (rest.length + 1) (c :: rest) = _
  simp only [pySplitF]
  have hd := length_dropWhile_le (fun x => !pyIsSpace x) rest
  rw [pySplitF_congr rest.length (rest.dropWhile (fun x => !pyIsSpace x)).length
      (rest.dropWhile (fun x => !pyIsSpace x)) (by omega) (le_refl _)]
  rfl

def pySplitlinesF : Nat → List Char → List (List Char)
  | 0, _ => []
  | _ + 1, [] => []
  | fuel + 1, c :: rest =>
    let line := (c :: rest).takeWhile (fun x => !isLineBreak x)
    match (c :: rest).dropWhile (fun x => !isLineBreak x) with
    | [] => [line]
    | b :: rest2 =>
      if b = '\r' ∧ rest2.head? = some '\n' then
        line :: pySplitlinesF fuel (rest2.drop 1)
      else line :: pySplitlinesF fuel rest2

def pySplitlines (cs : List Char) : List (List Char) := pySplitlinesF cs.length cs

theorem pySplitlinesF_nil (f : Nat) : pySplitlinesF f [] = [] := by cases f <;> rfl

theorem pySplitlinesF_congr : ∀ (f g : Nat) (cs : List Char), cs.length ≤ f →
    cs.length ≤ g → pySplitlinesF f cs = pySplitlinesF g cs := by
  intro f
  induction f with
  | zero =>
    intro g cs hf _
    have : cs = [] := List.length_eq_zero.mp (Nat.le_zero.mp hf)
    subst this
    simp [pySplitlinesF_nil, pySplitlinesF]
  | succ f ih =>
    intro g cs hf hg
    cases cs with
    | nil => simp [pySplitlinesF_nil]
    | cons c rest =>
      cases g with
      | zero => simp at hg
      | succ g =>
        simp only [pySplitlinesF]
        simp at hf hg
        have hle := length_dropWhile_le (fun x => !isLineBreak x) (c :: rest)
        cases hdw : (c :: rest).dropWhile (fun x => !isLineBreak x) with
        | nil => rfl
        | cons b rest2 =>
          rw [hdw] at hle
          simp only
          simp at hle
          have hd1 : (rest2.drop 1).length ≤ rest2.length := by
            simp [List.length_drop]
          by_cases hb : b = '\r' ∧ rest2.head? = some '\n'
          · rw [if_pos hb, if_pos hb, ih g (rest2.drop 1) (by omega) (by omega)]
          · rw [if_neg hb, if_neg hb, ih g rest2 (by omega) (by omega)]

/-- `str.splitlines()`: break at the line-boundary characters, `\r\n`
counting as a single boundary, with no trailing empty line. -/
theorem pySplitlines_cons (c : Char) (rest : List Char) :
    pySplitlines (c :: rest) =
      let line := (c :: rest).takeWhile (fun x => !isLineBreak x)
      match (c :: rest).dropWhile (fun x => !isLineBreak x) with
      | [] => [line]
      | b :: rest2 =>
        if b = '\r' ∧ rest2.head? = some '\n' then
          line :: pySplitlines (rest2.drop 1)
        else line :: pySplitlines rest2 := by
  show pySplitlinesF (rest.length + 1) (c :: rest) = _
  simp only [pySplitlinesF]
  have hle := length_dropWhile_le (fun x => !isLineBreak x) (c :: rest)
  cases hdw : (c :: rest).dropWhile (fun x => !isLineBreak x) with
  | nil => rfl
  | cons b rest2 =>
    rw [hdw] at hle
    simp only
    simp at hle
    have hd1 : (rest2.drop 1).length ≤ rest2.length := by
      simp [List.length_drop]
    by_cases hb : b = '\r' ∧ rest2.head? = some '\n'
    · rw [if_pos hb, if_pos hb,
        pySplitlinesF_congr rest.length (rest2.drop 1).length (rest2.drop 1)
          (by omega) (le_refl _)]
      rfl
    · rw [if_neg hb, if_neg hb,
        pySplitlinesF_congr rest.length rest2.length rest2 (by omega) (le_refl _)]
      rfl

/-- `" ".join(ws)`. -/
def joinSp : List (List Char) → List Char
  | [] => []
  | [w] => w
  | w :: ws => w ++ ' ' :: joinSp ws

/-- `"\n".join(ls)`. -/
def joinNl : List (List Char) → List Char
  | [] => []
  | [l] => l
  | l :: ls => l ++ '\n' :: joinNl ls

def normLine (l : List Char) : List Char := joinSp (pySplit l)

def wsNorm (cs : List Char) : List Char :=
  joinNl (((pySplitlines cs).map normLine).filter (fun l => l ≠ []))

/-! ### `clean_text` -/

def cleanCore (value : List Char) : List Char :=
  wsNorm (tagSub (pyUnescape (brSub value)))

/-- `clean_text(value)`: `None` becomes `""`; otherwise replace (buggy)
`<br>` matches with newlines, decode entities, strip tags, and normalize
whitespace.  (The `str(value)` coercion for non-string input is outside the
embedding, which takes strings.) -/
def clean_text : Option String → String
  | none => ""
  | some s => String.mk (cleanCore s.data)

/-! ### Salary parser -/

/-- Python `str.strip()`: remove leading and trailing whitespace. -/
def pyStrip (cs : List Char) : List Char :=
  ((cs.dropWhile pyIsSpace).reverse.dropWhile pyIsSpace).reverse

/-- Python `str.lower()`, modelled over ASCII (every keyword the source
compares against is ASCII). -/
def toLowerL (cs : List Char) : List Char := cs.map Char.toLower

/-- `needle in haystack` for Python strings. -/
def isSubstr (needle : List Char) : List Char → Bool
  | [] => needle.isEmpty
  | c :: rest => needle.isPrefixOf (c :: rest) || isSubstr needle rest

def isDigitOrComma (c : Char) : Bool := c.isDigit || c == ','

/-- `_SALARY_NUM_RE.findall(raw)` with `_SALARY_NUM_RE =
re.compile(r'[\$]?\s*([\d,]+(?:\.\d+)?)')`: the captured tokens are the
maximal digit/comma runs, each with an attached fraction when a `.` is
immediately followed by a digit. -/
def findNumsF : Nat → List Char → List (List Char)
  | 0, _ => []
  | _ + 1, [] => []
  | fuel + 1, c :: rest =>
    if isDigitOrComma c then
      let run := c :: rest.takeWhile isDigitOrComma
      let r1 := rest.dropWhile isDigitOrComma
      if r1.head? = some '.' ∧ (r1.drop 1).head?.any Char.isDigit then
        (run ++ '.' :: (r1.drop 1).takeWhile Char.isDigit) ::
          findNumsF fuel ((r1.drop 1).dropWhile Char.isDigit)
      else run :: findNumsF fuel r1
    else findNumsF fuel rest

def findNums (cs : List Char) : List (List Char) := findNumsF cs.length cs

def digitsToNat (cs : List Char) : Nat :=
  cs.foldl (fun acc c => acc * 10 + (c.val.toNat - '0'.val.toNat)) 0

/-- `n = n.replace(',', '').strip(); if n: float(n)`.  A token from
`findNums` is digits/commas with an optional `.digits` fraction; after
removing commas it is empty (skipped) or parses as a non-negative number. -/
def tokenToQ (token : List Char) : Option ℚ :=
  let n := token.filter (fun c => c != ',')
  if n.isEmpty then none
  else
    let intPart := n.takeWhile (fun c => c != '.')
    let fracPart := (n.dropWhile (fun c => c != '.')).drop 1
    some ((digitsToNat intPart : ℚ) +
      (digitsToNat fracPart : ℚ) / ((10 : ℚ) ^ fracPart.length))

def salaryNums (raw : List Char) : List ℚ := (findNums raw).filterMap tokenToQ

def SKIP_SALARIES : List (List Char) :=
  ["tbd".data, "n/a".data, "doe".data, "any".data, "negotiable".data,
   "project-based".data]

def isSkipSalary (low : List Char) : Bool :=
  SKIP_SALARIES.any (fun s => s == low) || isSubstr "based on".data low ||
    isSubstr "competitive".data low

def HOURLY_KWS : List (List Char) :=
  ["/hr".data, "/hour".data, "per hour".data, "hourly".data, "hour".data]
def YEARLY_KWS : List (List Char) :=
  ["/yr".data, "/year".data, "annual".data, "yearly".data]
def WEEKLY_KWS : List (List Char) :=
  ["/w".data, "/week".data, "weekly".data, "per week".data]
def MONTHLY_KWS : List (List Char) :=
  ["/mo".data, "/month".data, "monthly".data, "per month".data]

def containsAny (low : List Char) (kws : List (List Char)) : Bool :=
  kws.any (fun kw => isSubstr kw low)

/-- Period detection and magnitude fallback applied to the mean, from the
branch ladder at the end of `parse_salary_monthly`. -/
def periodMonthly (low : List Char) (avg : ℚ) : ℚ :=
  if containsAny low HOURLY_KWS then avg * 160
  else if containsAny low YEARLY_KWS then avg / 12
  else if containsAny low WEEKLY_KWS then avg * 4
  else if containsAny low MONTHLY_KWS then avg
  else if avg > 10000 then avg / 12
  else if avg < 50 then avg * 160
  else avg

/-! The job record: an open mapping in Python, embedded as the fields the
core reads.  `none` stands for an absent key or a `None` value (the two are
indistinguishable through the `job.get(k) or ''` reads the code performs).
Derived `_`-fields are written during normalization. -/

structure PyDateTime where
  year : Nat
  month : Nat
  day : Nat
  hour : Nat
  minute : Nat
  second : Nat
deriving DecidableEq

def dtMin : PyDateTime := ⟨1, 1, 1, 0, 0, 0⟩

/-- Python `datetime` comparison: lexicographic on the components. -/
def dtLt (a b : PyDateTime) : Bool :=
  a.year < b.year || (a.year == b.year && (a.month < b.month ||
    (a.month == b.month && (a.day < b.day || (a.day == b.day &&
      (a.hour < b.hour || (a.hour == b.hour && (a.minute < b.minute ||
        (a.minute == b.minute && a.second < b.second)))))))))

structure Job where
  title : Option String := none
  description : Option String := none
  job_description : Option String := none
  company : Option String := none
  location : Option String := none
  salary : Option String := none
  type : Option String := none
  category : Option String := none
  source : Option String := none
  posted_date : Option String := none
  date_posted : Option String := none
  id : Nat := 0
  _arrangement : String := ""
  _job_type : String := ""
  _parsed_date : Option PyDateTime := none
  _display_date : String := ""
  _salary_monthly : Option ℚ := none
deriving DecidableEq

def salaryRaw (job : Job) : List Char := pyStrip (job.salary.getD "").data

/-- `parse_salary_monthly(job)` from the source. -/
def parse_salary_monthly (job : Job) : Option ℚ :=
  let raw := salaryRaw job
  if raw = [] then none
  else
    let low := toLowerL raw
    if isSkipSalary low then none
    else
      let nums := salaryNums raw
      if nums = [] then none
      else some (periodMonthly low (nums.sum / (nums.length : ℚ)))

/-! ### Classifier -/

def ARRANGEMENT_KEYWORDS : List (String × List String) :=
  [("remote", ["remote", "work from home", "wfh", "anywhere"]),
   ("hybrid", ["hybrid"]),
   ("onsite", ["onsite", "on-site", "on site", "in-office", "in office"])]

def TYPE_KEYWORDS : List (String × List String) :=
  [("full-time", ["full-time", "full time", "fulltime"]),
   ("part-time", ["part-time", "part time", "parttime"]),
   ("contract", ["contract"]),
   ("freelance", ["freelance", "gig"])]

/-- First label whose keyword list has a substring hit; `''` otherwise. -/
def firstMatch (table : List (String × List String)) (text : List Char) : String :=
  match table with
  | [] => ""
  | (label, kws) :: rest =>
    if kws.any (fun kw => isSubstr kw.data text) then label
    else firstMatch rest text

def detect_arrangement (job : Job) : String :=
  firstMatch ARRANGEMENT_KEYWORDS (toLowerL (List.intercalate " ".data
    [(job.location.getD "").data, (job.title.getD "").data,
     (job.category.getD "").data, (job.type.getD "").data]))

def detect_job_type (job : Job) : String :=
  firstMatch TYPE_KEYWORDS (toLowerL (List.intercalate " ".data
    [(job.category.getD "").data, (job.type.getD "").data,
     (job.title.getD "").data]))

/-! ### Date parser

The four parsing attempts of `parse_date` use stdlib routines
(`datetime.fromisoformat`, `email.utils.parsedate_to_datetime`,
`datetime.strptime`); they are modelled over the formats the specification
names (ISO-8601 with optional offset, RFC-2822, `"%b %d, %Y"`,
`"%Y-%m-%d"`), each attempt total and failing to `none`.  Timezone offsets
are parsed and discarded (`dt.replace(tzinfo=None)` keeps wall time). -/

def digitsVal (cs : List Char) : Option Nat :=
  if cs ≠ [] ∧ cs.all Char.isDigit then some (digitsToNat cs) else none

def isLeap (y : Nat) : Bool := (y % 4 == 0 && y % 100 != 0) || y % 400 == 0

def daysInMonth (y m : Nat) : Nat :=
  if m = 2 then (if isLeap y then 29 else 28)
  else if m = 4 ∨ m = 6 ∨ m = 9 ∨ m = 11 then 30
  else 31

def mkDate (y m d : Nat) : Option PyDateTime :=
  if 1 ≤ y ∧ y ≤ 9999 ∧ 1 ≤ m ∧ m ≤ 12 ∧ 1 ≤ d ∧ d ≤ daysInMonth y m then
    some ⟨y, m, d, 0, 0, 0⟩
  else none

def withTime (dt : PyDateTime) (hh mm ss : Nat) : Option PyDateTime :=
  if hh ≤ 23 ∧ mm ≤ 59 ∧ ss ≤ 59 then
    some { dt with hour := hh, minute := mm, second := ss }
  else none

def splitOn (sep : Char) (cs : List Char) : List (List Char) :=
  match cs with
  | [] => [[]]
  | c :: rest =>
    let tail := splitOn sep rest
    if c = sep then [] :: tail
    else match tail with
      | [] => [[c]]
      | t :: ts => (c :: t) :: ts

/-- `YYYY-MM-DD` (also the final `strptime('%Y-%m-%d')` attempt). -/
def parseYmd (cs : List Char) : Option PyDateTime :=
  match splitOn '-' cs with
  | [ys, ms, ds] =>
    match digitsVal ys, digitsVal ms, digitsVal ds with
    | some y, some m, some d =>
      if ys.length = 4 ∧ ms.length ≤ 2 ∧ ds.length ≤ 2 then mkDate y m d
      else none
    | _, _, _ => none
  | _ => none

def parseHms (cs : List Char) : Option (Nat × Nat × Nat) :=
  match splitOn ':' cs with
  | [hs, ms] =>
    match digitsVal hs, digitsVal ms with
    | some h, some m => if hs.length = 2 ∧ ms.length = 2 then some (h, m, 0) else none
    | _, _ => none
  | [hs, ms, ss] =>
    let ss := ss.takeWhile (fun c => c ≠ '.')
    match digitsVal hs, digitsVal ms, digitsVal ss with
    | some h, some m, some s =>
      if hs.length = 2 ∧ ms.length = 2 ∧ ss.length = 2 then some (h, m, s) else none
    | _, _, _ => none
  | _ => none

/-- Strip a trailing `±HH:MM` / `±HHMM` / `Z` offset from an ISO time. -/
def dropOffset (cs : List Char) : List Char :=
  if cs.getLast? = some 'Z' then cs.dropLast
  else
    let n := cs.length
    let tailOf (k : Nat) := cs.drop (n - k)
    if n > 6 ∧ (tailOf 6).head? ∈ [some '+', some '-'] ∧
        parseHms ((tailOf 6).drop 1) ≠ none then cs.take (n - 6)
    else if n > 5 ∧ (tailOf 5).head? ∈ [some '+', some '-'] ∧
        digitsVal ((tailOf 5).drop 1) ≠ none then cs.take (n - 5)
    else cs

/-- `datetime.fromisoformat` restricted to `YYYY-MM-DD` with an optional
`T`/space time-of-day and optional offset. -/
def parseIso (cs : List Char) : Option PyDateTime :=
  if cs.length = 10 then parseYmd cs
  else if cs.length > 11 ∧ (cs.drop 10).head? ∈ [some 'T', some ' '] then
    match parseYmd (cs.take 10) with
    | none => none
    | some d =>
      match parseHms (dropOffset (cs.drop 11)) with
      | none => none
      | some (hh, mm, ss) => withTime d hh mm ss
  else none

def MONTH_ABBREVS : List (List Char) :=
  ["Jan".data, "Feb".data, "Mar".data, "Apr".data, "May".data, "Jun".data,
   "Jul".data, "Aug".data, "Sep".data, "Oct".data, "Nov".data, "Dec".data]

def monthOfAbbrev (cs : List Char) : Option Nat :=
  match MONTH_ABBREVS.findIdx? (fun m => m == cs) with
  | some i => some (i + 1)
  | none => none

/-- `parsedate_to_datetime` on `"Wed, 12 Nov 2025 08:56:02 +0000"`-style
strings (RFC 2822); the optional leading day name and the offset are
discarded. -/
def parseRfc2822 (cs : List Char) : Option PyDateTime :=
  let ws := pySplit cs
  let ws := match ws with
    | w :: rest => if w.getLast? = some ',' then rest else w :: rest
    | [] => []
  match ws with
  | [ds, mons, ys, hms] =>
    match digitsVal ds, monthOfAbbrev mons, digitsVal ys, parseHms hms with
    | some d, some m, some y, some (hh, mm, ss) =>
      match mkDate y m d with
      | some date => withTime date hh mm ss
      | none => none
    | _, _, _, _ => none
  | [ds, mons, ys, hms, _off] =>
    match digitsVal ds, monthOfAbbrev mons, digitsVal ys, parseHms hms with
    | some d, some m, some y, some (hh, mm, ss) =>
      match mkDate y m d with
      | some date => withTime date hh mm ss
      | none => none
    | _, _, _, _ => none
  | _ => none

/-- `datetime.strptime(raw, '%b %d, %Y')`: e.g. `"Feb 4, 2026"`. -/
def parseShortDate (cs : List Char) : Option PyDateTime :=
  match pySplit cs with
  | [mons, ds, ys] =>
    if ds.getLast? = some ',' then
      match monthOfAbbrev mons, digitsVal ds.dropLast, digitsVal ys with
      | some m, some d, some y =>
        if ds.dropLast.length ≤ 2 ∧ ys.length = 4 then mkDate y m d else none
      | _, _, _ => none
    else none
  | _ => none

/-- `(job.get('posted_date') or job.get('date_posted') or '').strip()`:
`posted_date` when present and non-empty, else `date_posted`, else `''`. -/
def rawDate (job : Job) : List Char :=
  match job.posted_date with
  | some s => if s ≠ "" then pyStrip s.data else pyStrip (job.date_posted.getD "").data
  | none => pyStrip (job.date_posted.getD "").data

/-- `parse_date(job)`: first success among the four attempts wins. -/
def parse_date (job : Job) : Option PyDateTime :=
  let raw := rawDate job
  if raw = [] then none
  else
    match parseIso raw with
    | some dt => some dt
    | none =>
      match parseRfc2822 raw with
      | some dt => some dt
      | none =>
        match parseShortDate raw with
        | some dt => some dt
        | none => parseYmd raw

/-! ### `format_date` -/

/-- Replace every (leftmost, non-overlapping) occurrence of `old` in `cs`
by `rep` — Python `str.replace`. -/
def replaceAllF (old rep : List Char) : Nat → List Char → List Char
  | 0, cs => cs
  | _ + 1, [] => []
  | fuel + 1, c :: rest =>
    if old ≠ [] ∧ old.isPrefixOf (c :: rest) then
      rep ++ replaceAllF old rep fuel ((c :: rest).drop old.length)
    else c :: replaceAllF old rep fuel rest

def replaceAll (old rep cs : List Char) : List Char :=
  replaceAllF old rep cs.length cs

def pad2 (n : Nat) : List Char :=
  if n < 10 then '0' :: (Nat.toDigits 10 n) else Nat.toDigits 10 n

def monthAbbrev (m : Nat) : List Char :=
  (MONTH_ABBREVS.getD (m - 1) []).map id

/-- `dt.strftime('%b %d, %Y').replace(' 0', ' ')`. -/
def format_date : Option PyDateTime → String
  | none => ""
  | some dt =>
    String.mk (replaceAll " 0".data " ".data
      (monthAbbrev dt.month ++ ' ' :: pad2 dt.day ++ ',' :: ' ' ::
        Nat.toDigits 10 dt.year))

/-! ### Normalization pass (`load_jobs` body) -/

/-- `normalize_job_text(job)`: `clean_text` over each of the eight text
fields that is present. -/
def normalize_job_text (job : Job) : Job :=
  { job with
    title := job.title.map (fun s => clean_text (some s)),
    description := job.description.map (fun s => clean_text (some s)),
    job_description := job.job_description.map (fun s => clean_text (some s)),
    company := job.company.map (fun s => clean_text (some s)),
    location := job.location.map (fun s => clean_text (some s)),
    salary := job.salary.map (fun s => clean_text (some s)),
    type := job.type.map (fun s => clean_text (some s)),
    category := job.category.map (fun s => clean_text (some s)) }

/-- The per-record body of the `load_jobs` loop: clean the text fields,
then set `id` and the derived fields in order. -/
def annotate_job (idx : Nat) (job : Job) : Job :=
  let j0 := normalize_job_text job
  let j1 := { j0 with id := idx }
  let j2 := { j1 with _arrangement := detect_arrangement j1 }
  let j3 := { j2 with _job_type := detect_job_type j2 }
  let j4 := { j3 with _parsed_date := parse_date j3 }
  let j5 := { j4 with _display_date := format_date j4._parsed_date }
  { j5 with _salary_monthly := parse_salary_monthly j5 }

def annotate_from (idx : Nat) : List Job → List Job
  | [] => []
  | j :: js => annotate_job idx j :: annotate_from (idx + 1) js

/-- The normalization pass `load_jobs` applies to the raw records it read
(the file I/O itself is an external collaborator). -/
def load_normalize (raws : List Job) : List Job := annotate_from 0 raws

/-! ### Filter and sort engine -/

def SALARY_RANGES : List (String × (ℚ × Option ℚ)) :=
  [("under500", (0, some 500)),
   ("500to1000", (500, some 1000)),
   ("1000to2000", (1000, some 2000)),
   ("2000to5000", (2000, some 5000)),
   ("5000plus", (5000, none))]

/-- `lo <= v < hi` with `hi = float('inf')` for the top bracket. -/
def inBracket (lo : ℚ) (hi : Option ℚ) (v : ℚ) : Bool :=
  lo ≤ v && (match hi with | some h => v < h | none => true)

def sortKey (j : Job) : PyDateTime := j._parsed_date.getD dtMin

/-- Stable insertion of `x` into `s`: `x` goes before the first element it
is not outranked by.  With `keep x y = true` when `y` must stay in front,
`sortBy` is a stable sort — the unique result of any stable sorting
algorithm (Python's Timsort included) for the corresponding order. -/
def insBy (keep : Job → Job → Bool) (x : Job) : List Job → List Job
  | [] => [x]
  | y :: ys => if keep x y then y :: insBy keep x ys else x :: y :: ys

def sortBy (keep : Job → Job → Bool) : List Job → List Job
  | [] => []
  | x :: xs => insBy keep x (sortBy keep xs)

/-- Ascending by key (`sort=oldest`): `y` stays in front of a later `x`
when `key y < key x`, and also on ties (stability). -/
def keepAsc (x y : Job) : Bool := dtLt (sortKey y) (sortKey x)

/-- Descending by key (default, `reverse=True` — stability maintained):
`y` stays in front of a later `x` when `key y > key x`, and on ties. -/
def keepDesc (x y : Job) : Bool := dtLt (sortKey x) (sortKey y)

/-- True iff one of the five comprehension guards in `apply_filters` runs,
rebinding `filtered` to a fresh list (breaking the aliasing with the
caller's list). -/
def rebindsList (source_filter category_filter search_query arrangement_filter
    job_type_filter salary_filter : String) : Bool :=
  source_filter ≠ "" || category_filter ≠ "" || arrangement_filter ≠ "" ||
  job_type_filter ≠ "" ||
  (salary_filter ≠ "" && (SALARY_RANGES.lookup salary_filter).isSome) ||
  search_query ≠ ""

def matchesSearch (q : List Char) (j : Job) : Bool :=
  isSubstr q (toLowerL (j.title.getD "").data) ||
  isSubstr q (toLowerL (j.description.getD "").data) ||
  isSubstr q (toLowerL (j.job_description.getD "").data)

/-- `apply_filters` with the parameters in source order.  The first
component is the returned list.  Because `filtered` starts as an alias of
`jobs` and `list.sort()` mutates in place, the caller's list is itself
sorted when none of the comprehension guards ran; the second component is
the state of the caller's list after the call.  The job records themselves
are never written. -/
def apply_filters (jobs : List Job) (source_filter category_filter search_query
    arrangement_filter job_type_filter sort_by salary_filter : String) :
    List Job × List Job :=
  let f1 := if source_filter ≠ "" then
      jobs.filter (fun j => j.source.getD "" == source_filter) else jobs
  let f2 := if category_filter ≠ "" then
      f1.filter (fun j => j.category.getD "" == category_filter ||
        j.type.getD "" == category_filter) else f1
  let f3 := if arrangement_filter ≠ "" then
      f2.filter (fun j => j._arrangement == arrangement_filter) else f2
  let f4 := if job_type_filter ≠ "" then
      f3.filter (fun j => j._job_type == job_type_filter) else f3
  let f5 := match SALARY_RANGES.lookup salary_filter with
    | some (lo, hi) =>
      if salary_filter ≠ "" then
        f4.filter (fun j => match j._salary_monthly with
          | some v => inBracket lo hi v
          | none => false)
      else f4
    | none => f4
  let f6 := if search_query ≠ "" then
      f5.filter (matchesSearch (toLowerL search_query.data)) else f5
  let sorted := if sort_by = "oldest" then sortBy keepAsc f6 else sortBy keepDesc f6
  (sorted,
    if rebindsList source_filter category_filter search_query arrangement_filter
        job_type_filter salary_filter then jobs else sorted)

/-! ### Pagination (from the `index` route) -/

def JOBS_PER_PAGE : Nat := 20

/-- `total_pages = max(1, math.ceil(total/20))`; requested page clamped to
`[1, total_pages]`; slice `[start : start+20]`.  Returns
`(page items, total_pages, current_page)`. -/
def paginate (filtered : List Job) (requested : Int) : List Job × Nat × Int :=
  let total := filtered.length
  let total_pages := max 1 ((total + JOBS_PER_PAGE - 1) / JOBS_PER_PAGE)
  let current := max 1 (min requested (total_pages : Int))
  let start := ((current - 1) * (JOBS_PER_PAGE : Int)).toNat
  ((filtered.drop start).take JOBS_PER_PAGE, total_pages, current)

/-! ### Single-record lookup (`/api/job/<int:job_id>`) -/

/-- `if 0 <= job_id < len(jobs): jsonify(job) else 404`: `none` is the
explicit not-found outcome (the route's 404), distinct from any job value.
(The Flask `<int:job_id>` converter only produces non-negative integers.) -/
def get_by_id (jobs : List Job) (job_id : Nat) : Option Job :=
  if h : job_id < jobs.length then some jobs[job_id] else none

/-! ### Sorting lemmas: membership and stability -/

theorem mem_insBy {keep : Job → Job → Bool} {x a : Job} :
    ∀ {l : List Job}, a ∈ insBy keep x l ↔ a = x ∨ a ∈ l := by
  intro l
  induction l with
  | nil => simp [insBy]
  | cons y ys ih =>
    by_cases h : keep x y
    · simp only [insBy, if_pos h, List.mem_cons, ih]
      tauto
    · simp only [insBy, if_neg h, List.mem_cons]

theorem mem_sortBy {keep : Job → Job → Bool} {a : Job} :
    ∀ {l : List Job}, a ∈ sortBy keep l ↔ a ∈ l := by
  intro l
  induction l with
  | nil => simp [sortBy]
  | cons x xs ih =>
    simp only [sortBy, mem_insBy, List.mem_cons, ih]

theorem dtLt_ne {a b : PyDateTime} (h : dtLt a b = true) : a ≠ b := by
  intro he
  subst he
  simp [dtLt] at h

/-- Stability of the insertion step: inserting `x` does not disturb the
subsequence of elements with any fixed sort key, provided every element
`x` is placed behind has a different key. -/
theorem filter_insBy (keep : Job → Job → Bool) (x : Job) (k : PyDateTime)
    (hk : ∀ y, keep x y = true → sortKey y ≠ sortKey x) :
    ∀ (s : List Job),
      (insBy keep x s).filter (fun j => decide (sortKey j = k)) =
        if sortKey x = k then x :: s.filter (fun j => decide (sortKey j = k))
        else s.filter (fun j => decide (sortKey j = k)) := by
  intro s
  induction s with
  | nil =>
    by_cases hx : sortKey x = k <;> simp [insBy, List.filter, hx]
  | cons y ys ih =>
    by_cases hkeep : keep x y
    · have hne : sortKey y ≠ sortKey x := hk y hkeep
      simp only [insBy, if_pos hkeep]
      by_cases hx : sortKey x = k
      · have hy : ¬ (sortKey y = k) := fun hyk => hne (hx ▸ hyk)
        rw [if_pos hx] at ih ⊢
        simp [List.filter_cons, hy, ih]
      · rw [if_neg hx] at ih ⊢
        by_cases hy : sortKey y = k
        · simp [List.filter_cons, hy, ih]
        · simp [List.filter_cons, hy, ih]
    · simp only [insBy, if_neg hkeep]
      by_cases hx : sortKey x = k
      · simp [List.filter_cons, hx]
      · simp [List.filter_cons, hx]

/-- A stable sort preserves the relative order of equal-key elements: its
restriction to any fixed key equals the input's restriction. -/
theorem filter_sortBy (keep : Job → Job → Bool) (k : PyDateTime)
    (hk : ∀ x y, keep x y = true → sortKey y ≠ sortKey x) :
    ∀ (l : List Job),
      (sortBy keep l).filter (fun j => decide (sortKey j = k)) =
        l.filter (fun j => decide (sortKey j = k)) := by
  intro l
  induction l with
  | nil => simp [sortBy]
  | cons x xs ih =>
    simp only [sortBy]
    rw [filter_insBy keep x k (hk x), ih]
    by_cases hx : sortKey x = k
    · simp [List.filter, hx]
    · simp [List.filter, hx]

/-! ### Claim C1 -/

/-- C1 (code bug): the spec says `<br>` tags become newlines before generic
tag stripping, so `clean("a<br>b")` should be `"a\nb"`.  Because `_BR_RE`
is compiled from a raw string with doubled backslashes, its pattern
matches literal backslash characters and never a real `<br>` tag: the tag
falls through to `_TAG_RE` and becomes a space, so `clean("a<br>b")` is
`"a b"` (one line).  The second conjunct shows the pattern as compiled in
action: only the backslash-laden `"a<\br\\>b"` is turned into a newline. -/
theorem clean_br_bug :
    clean_text (some "a<br>b") = "a b" ∧
    clean_text (some "a<br/>b") = "a b" ∧
    clean_text (some "a<\\br\\\\>b") = "a\nb" := by
  refine ⟨by decide, by decide, by decide⟩

/-! ### Claim C3 -/

/-- C3 (counterexample): with no filter criteria, `filtered` still aliases
the caller's list when `filtered.sort(...)` runs, so the input list is
sorted in place: for a two-element list in ascending date order, the
caller's list is in a different order after the call. -/
theorem apply_filters_mutates_input :
    (apply_filters
      [{ _parsed_date := some ⟨2020, 1, 1, 0, 0, 0⟩ },
       { _parsed_date := some ⟨2021, 1, 1, 0, 0, 0⟩ }]
      "" "" "" "" "" "" "").2 ≠
      [{ _parsed_date := some ⟨2020, 1, 1, 0, 0, 0⟩ },
       { _parsed_date := some ⟨2021, 1, 1, 0, 0, 0⟩ }] := by
  decide

/-- C3 (amended): `apply_filters` never writes to a job record, and it
leaves the caller's list in its original order whenever at least one
criterion rebinds `filtered` to a fresh list (non-empty source, category,
arrangement, job-type or search criterion, or a salary criterion naming a
known bracket).  When no criterion does, the caller's list itself ends up
sorted: the post-call input is exactly the returned sequence. -/
theorem apply_filters_frame (jobs : List Job)
    (src cat search arr jt sort_by sal : String) :
    (rebindsList src cat search arr jt sal = true →
      (apply_filters jobs src cat search arr jt sort_by sal).2 = jobs) ∧
    (rebindsList src cat search arr jt sal = false →
      (apply_filters jobs src cat search arr jt sort_by sal).2 =
        (apply_filters jobs src cat search arr jt sort_by sal).1) := by
  constructor
  · intro h
    simp only [apply_filters, h, if_pos]
  · intro h
    simp only [apply_filters, h]
    simp

/-- Witness for `apply_filters_frame`: a non-empty source criterion leaves
the caller's list unchanged; with no criteria the post-call input is the
returned (sorted) list. -/
theorem apply_filters_frame_w :
    (apply_filters [{ source := some "a" }] "a" "" "" "" "" "" "").2 =
      [{ source := some "a" }] ∧
    (apply_filters [{ source := some "a" }] "" "" "" "" "" "" "").2 =
      (apply_filters [{ source := some "a" }] "" "" "" "" "" "" "").1 := by
  constructor
  · exact (apply_filters_frame [{ source := some "a" }] "a" "" "" "" "" "" "").1
      (by decide)
  · exact (apply_filters_frame [{ source := some "a" }] "" "" "" "" "" "" "").2
      (by decide)

/-! ### Claim C4 -/

/-- C4 (counterexample): `sort=oldest` does *not* reverse the relative
order of jobs with tied (here: both null) parsed dates — Python's
`list.sort` is stable in both directions, so the tied pair keeps its
original order, contradicting the claim that the order is reversed. -/
theorem sort_oldest_keeps_tied_order :
    (apply_filters [{ title := some "A" }, { title := some "B" }]
      "" "" "" "" "" "oldest" "").1 =
      [{ title := some "A" }, { title := some "B" }] ∧
    ({ title := some "A" } : Job) ≠ { title := some "B" } := by
  refine ⟨by decide, by decide⟩

/-- C4 (amended): both sort orders are stable.  For any job list and either
sort direction, restricting the sorted output to the jobs with any fixed
sort key (equal `_parsed_date`, with null sorting as `datetime.min`)
yields exactly the input's subsequence of those jobs: relative order of
tied jobs is preserved under the default order *and* under `oldest`. -/
theorem apply_filters_sort_stable (jobs : List Job) (sort_by : String)
    (k : PyDateTime) :
    ((apply_filters jobs "" "" "" "" "" sort_by "").1).filter
        (fun j => decide (sortKey j = k)) =
      jobs.filter (fun j => decide (sortKey j = k)) := by
  have hfst : (apply_filters jobs "" "" "" "" "" sort_by "").1 =
      if sort_by = "oldest" then sortBy keepAsc jobs else sortBy keepDesc jobs := rfl
  rw [hfst]
  by_cases hs : sort_by = "oldest"
  · rw [if_pos hs]
    exact filter_sortBy keepAsc k (fun x y h => dtLt_ne h) jobs
  · rw [if_neg hs]
    exact filter_sortBy keepDesc k (fun x y h => (dtLt_ne h).symm) jobs

/-! ### Claim C6 -/

/-- C6: pagination is correct.  For every input and requested page:
`totalPages` is at least 1, the item count fits in `totalPages` pages of
20 and would not fit in one page fewer (i.e. `totalPages =
max(1, ceil(count/20))`), the served page is the requested page clamped to
`[1, totalPages]`, and the page items are the slice
`[(page-1)*20 : (page-1)*20+20]`.  An empty input yields one empty page,
and page 99 of 45 items clamps to page 3 with the last 5 items. -/
theorem paginate_ok :
    (∀ (items : List Job) (p : Int),
      1 ≤ (paginate items p).2.1 ∧
      items.length ≤ (paginate items p).2.1 * JOBS_PER_PAGE ∧
      ((paginate items p).2.1 = 1 ∨
        ((paginate items p).2.1 - 1) * JOBS_PER_PAGE < items.length) ∧
      (paginate items p).2.2 = max 1 (min p ((paginate items p).2.1 : Int)) ∧
      (paginate items p).1 =
        (items.drop ((((paginate items p).2.2 - 1) * (JOBS_PER_PAGE : Int)).toNat)).take
          JOBS_PER_PAGE) ∧
    paginate [] 1 = ([], 1, 1) ∧
    (paginate ((List.range 45).map (fun i => { id := i })) 99).1 =
      ((List.range 45).map (fun i => ({ id := i } : Job))).drop 40 ∧
    (paginate ((List.range 45).map (fun i => { id := i })) 99).2.1 = 3 ∧
    (paginate ((List.range 45).map (fun i => { id := i })) 99).2.2 = 3 := by
  refine ⟨fun items p => ⟨?_, ?_, ?_, rfl, rfl⟩, by decide, by decide, by decide, by decide⟩
  · show 1 ≤ max 1 ((items.length + 20 - 1) / 20)
    omega
  · show items.length ≤
      max 1 ((items.length + JOBS_PER_PAGE - 1) / JOBS_PER_PAGE) * JOBS_PER_PAGE
    show items.length ≤ max 1 ((items.length + 20 - 1) / 20) * 20
    omega
  · show max 1 ((items.length + JOBS_PER_PAGE - 1) / JOBS_PER_PAGE) = 1 ∨ _
    show max 1 ((items.length + 20 - 1) / 20) = 1 ∨
      (max 1 ((items.length + 20 - 1) / 20) - 1) * 20 < items.length
    omega

/-! ### Claim C8 -/

theorem annotate_from_length (k : Nat) :
    ∀ (l : List Job), (annotate_from k l).length = l.length := by
  intro l
  induction l generalizing k with
  | nil => rfl
  | cons j js ih => simp [annotate_from, ih]

theorem annotate_from_get? :
    ∀ (l : List Job) (k i : Nat),
      (annotate_from k l).get? i = (l.get? i).map (annotate_job (k + i)) := by
  intro l
  induction l with
  | nil => intro k i; simp [annotate_from]
  | cons j js ih =>
    intro k i
    cases i with
    | zero => simp [annotate_from]
    | succ i =>
      simp only [annotate_from, List.get?_cons_succ, ih (k + 1) i]
      have he : k + 1 + i = k + (i + 1) := by omega
      rw [he]

theorem annotate_job_id (idx : Nat) (job : Job) : (annotate_job idx job).id = idx := rfl

/-- C8: for a collection normalized by the load pass, `get_by_id` returns
the record at position `id` — whose `id` field equals `id` — exactly when
`0 ≤ id < n`, and the explicit not-found outcome (`none`, the route's 404)
otherwise. -/
theorem get_by_id_ok (raws : List Job) (i : Nat) :
    (i < (load_normalize raws).length →
      ∃ j, get_by_id (load_normalize raws) i = some j ∧
        (load_normalize raws).get? i = some j ∧ j.id = i) ∧
    ((load_normalize raws).length ≤ i → get_by_id (load_normalize raws) i = none) := by
  constructor
  · intro hlt
    refine ⟨(load_normalize raws)[i], ?_, ?_, ?_⟩
    · simp [get_by_id, hlt]
    · exact List.get?_eq_get hlt
    · have hr : i < raws.length := by
        have := annotate_from_length 0 raws
        simp only [load_normalize] at hlt
        omega
      have h1 : (load_normalize raws).get? i = some ((load_normalize raws)[i]) :=
        List.get?_eq_get hlt
      have h2 : (load_normalize raws).get? i =
          (raws.get? i).map (annotate_job i) := by
        have := annotate_from_get? raws 0 i
        simpa [load_normalize] using this
      rw [h1] at h2
      have h3 : raws.get? i = some raws[i] := List.get?_eq_get hr
      rw [h3] at h2
      simp at h2
      rw [h2]
      exact annotate_job_id i raws[i]
  · intro hge
    simp [get_by_id, Nat.not_lt_of_ge hge]

/-- Witness for `get_by_id_ok`: a two-record collection serves index 1 and
404s index 5. -/
theorem get_by_id_ok_w :
    (∃ j, get_by_id (load_normalize [{}, {}]) 1 = some j ∧
      (load_normalize [{}, {}]).get? 1 = some j ∧ j.id = 1) ∧
    get_by_id (load_normalize [{}, {}]) 5 = none := by
  exact ⟨(get_by_id_ok [{}, {}] 1).1 (by decide),
    (get_by_id_ok [{}, {}] 5).2 (by decide)⟩

/-! ### Claim C9 -/

/-- C9: the core parsers are total by construction in this embedding (each
is a Lean function returning a value for every record); the one spot where
partiality could arise in the source — the division in the mean — is
guarded: when the extracted token list is empty `parse_salary_monthly`
returns `None` first, and a numeric result is only ever produced from a
non-empty token list. -/
theorem parse_salary_total (job : Job) :
    (salaryNums (salaryRaw job) = [] → parse_salary_monthly job = none) ∧
    (∀ v, parse_salary_monthly job = some v → salaryNums (salaryRaw job) ≠ []) := by
  constructor
  · intro h
    simp only [parse_salary_monthly]
    split_ifs <;> simp_all
  · intro v hv h
    simp only [parse_salary_monthly] at hv
    split_ifs at hv

/-- Witness for `parse_salary_total`: a non-numeric salary string extracts
no tokens and parses to `None`. -/
theorem parse_salary_total_w :
    parse_salary_monthly { salary := some "abc" } = none := by
  exact (parse_salary_total { salary := some "abc" }).1 (by decide)

/-! ### Evaluation helpers for concrete salary strings -/

theorem takeWhile_all {α : Type} {p : α → Bool} :
    ∀ {l : List α}, l.all p = true → l.takeWhile p = l := by
  intro l
  induction l with
  | nil => intro _; rfl
  | cons a l ih =>
    intro h
    simp only [List.all_cons, Bool.and_eq_true] at h
    simp [List.takeWhile_cons, h.1, ih h.2]

theorem dropWhile_all {α : Type} {p : α → Bool} :
    ∀ {l : List α}, l.all p = true → l.dropWhile p = [] := by
  intro l
  induction l with
  | nil => intro _; rfl
  | cons a l ih =>
    intro h
    simp only [List.all_cons, Bool.and_eq_true] at h
    simp [List.dropWhile_cons, h.1, ih h.2]

/-- A token whose comma-stripped form is a non-empty digit string (no
decimal point) parses to that integer. -/
theorem tokenToQ_int (t : List Char) (m : Nat)
    (h1 : (t.filter (fun c => c != ',')).isEmpty = false)
    (h2 : (t.filter (fun c => c != ',')).all (fun c => c != '.') = true)
    (h3 : digitsToNat (t.filter (fun c => c != ',')) = m) :
    tokenToQ t = some (m : ℚ) := by
  simp only [tokenToQ, h1, Bool.false_eq_true, if_false]
  rw [takeWhile_all h2, dropWhile_all h2, h3]
  simp [digitsToNat]

theorem parse_salary_eval_hr :
    parse_salary_monthly { salary := some "$20/hr" } = some 3200 := by
  have hraw : salaryRaw { salary := some "$20/hr" } = "$20/hr".data := by decide
  have hnums : salaryNums "$20/hr".data = [(20 : ℚ)] := by
    have hf : findNums "$20/hr".data = ["20".data] := by decide
    have ht := tokenToQ_int "20".data 20 (by decide) (by decide) (by decide)
    show List.filterMap tokenToQ (findNums "$20/hr".data) = [(20 : ℚ)]
    rw [hf]
    simp [ht]
  simp only [parse_salary_monthly, hraw, hnums]
  rw [if_neg (by decide), if_neg (by decide),
    if_neg (show ¬ ([(20 : ℚ)] = []) from by simp)]
  have hh : containsAny (toLowerL "$20/hr".data) HOURLY_KWS = true := by decide
  simp only [periodMonthly, hh, if_true]
  norm_num

theorem parse_salary_eval_year :
    parse_salary_monthly { salary := some "$60,000/year" } = some 5000 := by
  have hraw : salaryRaw { salary := some "$60,000/year" } = "$60,000/year".data := by
    decide
  have hnums : salaryNums "$60,000/year".data = [(60000 : ℚ)] := by
    have hf : findNums "$60,000/year".data = ["60,000".data] := by decide
    have ht := tokenToQ_int "60,000".data 60000 (by decide) (by decide) (by decide)
    show List.filterMap tokenToQ (findNums "$60,000/year".data) = [(60000 : ℚ)]
    rw [hf]
    simp [ht]
  simp only [parse_salary_monthly, hraw, hnums]
  rw [if_neg (by decide), if_neg (by decide),
    if_neg (show ¬ ([(60000 : ℚ)] = []) from by simp)]
  have hh : containsAny (toLowerL "$60,000/year".data) HOURLY_KWS = false := by decide
  have hy : containsAny (toLowerL "$60,000/year".data) YEARLY_KWS = true := by decide
  simp only [periodMonthly, hh, hy, Bool.false_eq_true, if_false, if_true]
  norm_num

/-! ### Claim C10 -/

theorem tokenToQ_nonneg {t : List Char} {q : ℚ} (h : tokenToQ t = some q) :
    0 ≤ q := by
  simp only [tokenToQ] at h
  split_ifs at h
  simp only [Option.some.injEq] at h
  rw [← h]
  positivity

theorem mean_nonneg {l : List ℚ} (h : ∀ x ∈ l, 0 ≤ x) :
    0 ≤ l.sum / (l.length : ℚ) := by
  apply div_nonneg (List.sum_nonneg h)
  positivity

theorem periodMonthly_nonneg (low : List Char) {avg : ℚ} (h : 0 ≤ avg) :
    0 ≤ periodMonthly low avg := by
  simp only [periodMonthly]
  split_ifs <;> positivity

/-- C10: `parse_salary_monthly` never returns a negative estimate: the
numeric-token pattern captures only unsigned digit strings and every
period factor is positive, so `_salary_monthly` is `None` or `≥ 0` — in
particular, membership in the `under500` bracket `[0, 500)` degenerates to
the upper-bound test alone for any parsed salary. -/
theorem parse_salary_nonneg (job : Job) (v : ℚ)
    (h : parse_salary_monthly job = some v) :
    0 ≤ v ∧ (inBracket 0 (some 500) v = true ↔ v < 500) := by
  have h0 : 0 ≤ v := by
    simp only [parse_salary_monthly] at h
    split_ifs at h
    simp only [Option.some.injEq] at h
    rw [← h]
    apply periodMonthly_nonneg
    apply mean_nonneg
    intro x hx
    simp only [salaryNums, List.mem_filterMap] at hx
    obtain ⟨t, _, ht⟩ := hx
    exact tokenToQ_nonneg ht
  refine ⟨h0, ?_⟩
  simp [inBracket, h0]

/-- Witness for `parse_salary_nonneg` at the parsed value of `"$20/hr"`. -/
theorem parse_salary_nonneg_w :
    0 ≤ (3200 : ℚ) ∧ (inBracket 0 (some 500) 3200 = true ↔ (3200 : ℚ) < 500) :=
  parse_salary_nonneg { salary := some "$20/hr" } 3200 parse_salary_eval_hr

/-! ### Claim C5 -/

/-- The period rule in the words of the claim: first match wins in the
order hourly (×160), yearly (÷12), weekly (×4), monthly (unchanged); with
no period keyword, a mean above 10000 is divided by 12, a mean below 50 is
multiplied by 160, and otherwise the mean is returned as-is.  (Written
from the specification text, to be compared with `periodMonthly` from the
source.) -/
def spec_monthly (low : List Char) (avg : ℚ) : ℚ :=
  if containsAny low ["/hr".data, "/hour".data, "per hour".data, "hourly".data,
      "hour".data] then avg * 160
  else if containsAny low ["/yr".data, "/year".data, "annual".data,
      "yearly".data] then avg / 12
  else if containsAny low ["/w".data, "/week".data, "weekly".data,
      "per week".data] then avg * 4
  else if containsAny low ["/mo".data, "/month".data, "monthly".data,
      "per month".data] then avg
  else if avg > 10000 then avg / 12
  else if avg < 50 then avg * 160
  else avg

theorem salaryNums_competitive :
    salaryNums (salaryRaw { salary := some "competitive $50/hr" }) = [(50 : ℚ)] := by
  have hraw : salaryRaw { salary := some "competitive $50/hr" } =
      "competitive $50/hr".data := by decide
  have hf : findNums "competitive $50/hr".data = ["50".data] := by decide
  have ht := tokenToQ_int "50".data 50 (by decide) (by decide) (by decide)
  rw [hraw]
  show List.filterMap tokenToQ (findNums "competitive $50/hr".data) = [(50 : ℚ)]
  rw [hf]
  simp [ht]

/-- C5 (counterexample): the claim quantifies over *every* salary string
from which at least one numeric token is extracted, but the skip-list test
runs first: `"competitive $50/hr"` extracts the token 50, yet the parse
returns `None` rather than the hourly conversion 50 × 160. -/
theorem salary_skip_overrides_period :
    salaryNums (salaryRaw { salary := some "competitive $50/hr" }) ≠ [] ∧
    parse_salary_monthly { salary := some "competitive $50/hr" } = none := by
  constructor
  · rw [salaryNums_competitive]
    simp
  · simp only [parse_salary_monthly]
    rw [if_neg (by decide), if_pos (by decide)]

/-- C5 (amended): for every salary string that does not hit the skip-list
of non-numeric markers and from which at least one numeric token is
extracted, the result is the mean adjusted by the period rule in the
claim's precedence order (or the magnitude fallback); in particular
`"$20/hr"` parses to 3200 and `"$60,000/year"` to 5000. -/
theorem parse_salary_period_rule :
    (∀ job : Job, salaryRaw job ≠ [] →
      isSkipSalary (toLowerL (salaryRaw job)) = false →
      salaryNums (salaryRaw job) ≠ [] →
      parse_salary_monthly job =
        some (spec_monthly (toLowerL (salaryRaw job))
          ((salaryNums (salaryRaw job)).sum /
            ((salaryNums (salaryRaw job)).length : ℚ)))) ∧
    parse_salary_monthly { salary := some "$20/hr" } = some 3200 ∧
    parse_salary_monthly { salary := some "$60,000/year" } = some 5000 := by
  refine ⟨?_, parse_salary_eval_hr, parse_salary_eval_year⟩
  intro job h1 h2 h3
  simp only [parse_salary_monthly]
  rw [if_neg h1, if_neg (by simp [h2]), if_neg h3]
  rfl

/-- Witness for `parse_salary_period_rule`: `"$50-$70"` is not skipped,
extracts two tokens, and follows the period rule (mean 60, no keyword,
magnitude fallback leaves it unchanged). -/
theorem parse_salary_period_rule_w :
    parse_salary_monthly { salary := some "$50-$70" } =
      some (spec_monthly (toLowerL (salaryRaw { salary := some "$50-$70" }))
        ((salaryNums (salaryRaw { salary := some "$50-$70" })).sum /
          ((salaryNums (salaryRaw { salary := some "$50-$70" })).length : ℚ))) := by
  have hraw : salaryRaw { salary := some "$50-$70" } = "$50-$70".data := by decide
  have hnums : salaryNums (salaryRaw { salary := some "$50-$70" }) =
      [(50 : ℚ), 70] := by
    have hf : findNums "$50-$70".data = ["50".data, "70".data] := by decide
    have ht1 := tokenToQ_int "50".data 50 (by decide) (by decide) (by decide)
    have ht2 := tokenToQ_int "70".data 70 (by decide) (by decide) (by decide)
    rw [hraw]
    show List.filterMap tokenToQ (findNums "$50-$70".data) = [(50 : ℚ), 70]
    rw [hf]
    simp [ht1, ht2]
  exact parse_salary_period_rule.1 { salary := some "$50-$70" }
    (by rw [hraw]; decide) (by rw [hraw]; decide) (by rw [hnums]; simp)

/-! ### Claim C7 -/

theorem lookup_key_ne_empty {key : String} {p : ℚ × Option ℚ}
    (h : SALARY_RANGES.lookup key = some p) : key ≠ "" := by
  intro he
  rw [he] at h
  exact Option.noConfusion ((rfl : SALARY_RANGES.lookup "" = none) ▸ h)

/-- C7: with a salary criterion naming one of the five brackets
`[lo, hi)`, a job passes exactly when its `_salary_monthly` is non-null
and `lo ≤ v < hi` (membership stated against the single-criterion query);
with an unknown bracket key the criterion is silently dropped: the whole
query — any other criteria included — returns exactly what it returns
without the salary criterion, and no error is raised. -/
theorem salary_bracket_filter :
    (∀ (jobs : List Job) (key : String) (lo : ℚ) (hi : Option ℚ),
      SALARY_RANGES.lookup key = some (lo, hi) →
      ∀ j, j ∈ (apply_filters jobs "" "" "" "" "" "" key).1 ↔
        (j ∈ jobs ∧ ∃ v, j._salary_monthly = some v ∧ lo ≤ v ∧
          ∀ h, hi = some h → v < h)) ∧
    (∀ (jobs : List Job) (src cat search arr jt sort_by key : String),
      SALARY_RANGES.lookup key = none →
      apply_filters jobs src cat search arr jt sort_by key =
        apply_filters jobs src cat search arr jt sort_by "") := by
  constructor
  · intro jobs key lo hi hk j
    have hne : key ≠ "" := lookup_key_ne_empty hk
    have hfst : (apply_filters jobs "" "" "" "" "" "" key).1 =
        sortBy keepDesc (jobs.filter (fun j => match j._salary_monthly with
          | some v => inBracket lo hi v
          | none => false)) := by
      simp only [apply_filters, hk]
      simp [hne]
    rw [hfst, mem_sortBy, List.mem_filter]
    constructor
    · rintro ⟨hj, hp⟩
      cases hv : j._salary_monthly with
      | none => rw [hv] at hp; simp at hp
      | some v =>
        rw [hv] at hp
        simp only [inBracket, Bool.and_eq_true, decide_eq_true_eq] at hp
        refine ⟨hj, v, rfl, hp.1, ?_⟩
        intro h hh
        rw [hh] at hp
        simpa using hp.2
    · rintro ⟨hj, v, hv, hlo, hhi⟩
      refine ⟨hj, ?_⟩
      rw [hv]
      simp only [inBracket, Bool.and_eq_true, decide_eq_true_eq]
      refine ⟨hlo, ?_⟩
      cases hi with
      | none => simp
      | some h => simpa using hhi h rfl
  · intro jobs src cat search arr jt sort_by key hk
    simp only [apply_filters, hk, rebindsList]
    simp [show SALARY_RANGES.lookup "" = none from rfl]

/-- Witness for `salary_bracket_filter`: a job at 100 monthly passes the
`under500` bracket, and an unknown key `"bogus"` leaves the query
untouched. -/
theorem salary_bracket_filter_w :
    (({ _salary_monthly := some 100 } : Job) ∈
      (apply_filters [{ _salary_monthly := some 100 }]
        "" "" "" "" "" "" "under500").1) ∧
    apply_filters [{}] "a" "" "" "" "" "" "bogus" =
      apply_filters [{}] "a" "" "" "" "" "" "" := by
  constructor
  · exact (salary_bracket_filter.1 [{ _salary_monthly := some 100 }]
      "under500" 0 (some 500) rfl _).mpr
      ⟨by simp, 100, rfl, by norm_num,
        by intro h hh; injection hh with e; rw [← e]; norm_num⟩
  · exact salary_bracket_filter.2 [{}] "a" "" "" "" "" "" "bogus" rfl

/-! ### Claim C2: machinery

`clean` is not idempotent (HTML entities are re-decoded on a second pass),
but it is idempotent on every input whose cleaned form contains no `&`.
The proof needs: the output of `clean` contains no `_TAG_RE` match and no
`_BR_RE` match (so both substitutions are the identity on it), and the
whitespace normalization is idempotent.

"No tag match" is tracked by a three-state automaton: `safe` (no pending
`<`), `just` (a `<` was read, nothing after it yet), `opn` (a `<` followed
by at least one non-`>` character is pending); reading `>` in state `opn`
completes a `<[^>]+>` match (`bad`). -/

inductive TagSt
  | safe
  | just
  | opn
  | bad
deriving DecidableEq

def tagStep : TagSt → Char → TagSt
  | .bad, _ => .bad
  | .safe, c => if c = '<' then .just else .safe
  | .just, c => if c = '>' then .safe else .opn
  | .opn, c => if c = '>' then .bad else .opn

def tagRun (s : TagSt) (cs : List Char) : TagSt := cs.foldl tagStep s

def rank : TagSt → Nat
  | .safe => 0
  | .just => 1
  | .opn => 2
  | .bad => 3

theorem tagRun_nil (s : TagSt) : tagRun s [] = s := rfl

theorem tagRun_cons (s : TagSt) (c : Char) (cs : List Char) :
    tagRun s (c :: cs) = tagRun (tagStep s c) cs := rfl

theorem tagRun_append (s : TagSt) (a b : List Char) :
    tagRun s (a ++ b) = tagRun (tagRun s a) b := List.foldl_append ..

theorem tagRun_bad (cs : List Char) : tagRun .bad cs = .bad := by
  induction cs with
  | nil => rfl
  | cons c cs ih => rw [tagRun_cons]; exact ih

theorem rank_eq_three_iff {s : TagSt} : rank s = 3 ↔ s = .bad := by
  cases s <;> simp [rank]

theorem tagStep_mono {a b : TagSt} (h : rank a ≤ rank b) (c : Char) :
    rank (tagStep a c) ≤ rank (tagStep b c) := by
  cases a <;> cases b <;>
    simp only [tagStep, rank] at h ⊢ <;>
    (try split_ifs) <;> simp_all [rank]

theorem tagRun_mono {a b : TagSt} (h : rank a ≤ rank b) :
    ∀ cs, rank (tagRun a cs) ≤ rank (tagRun b cs) := by
  intro cs
  induction cs generalizing a b with
  | nil => exact h
  | cons c cs ih =>
    rw [tagRun_cons, tagRun_cons]
    exact ih (tagStep_mono h c)

theorem pyIsSpace_ne_lt {c : Char} (h : pyIsSpace c = true) : c ≠ '<' := by
  intro he; subst he; revert h; decide

theorem pyIsSpace_ne_gt {c : Char} (h : pyIsSpace c = true) : c ≠ '>' := by
  intro he; subst he; revert h; decide

/-- Reading any character other than `<` and `>` moves every state the
same way, and never downward in rank. -/
theorem tagStep_other_eq {a b : Char} (s : TagSt) (ha1 : a ≠ '<') (ha2 : a ≠ '>')
    (hb1 : b ≠ '<') (hb2 : b ≠ '>') : tagStep s a = tagStep s b := by
  cases s <;> simp [tagStep, ha1, ha2, hb1, hb2]

theorem rank_le_tagStep_other (s : TagSt) {c : Char} (h1 : c ≠ '<') (h2 : c ≠ '>') :
    rank s ≤ rank (tagStep s c) := by
  cases s <;> simp [tagStep, rank, h1, h2]

/-- `Weak t y`: `y` is `t` with some whitespace characters replaced by
other whitespace characters and some deleted; all other characters are
kept in order.  The whitespace normalization of `clean` produces a
`Weak`-image of its input. -/
inductive Weak : List Char → List Char → Prop
  | nil : Weak [] []
  | keep (c : Char) {t y : List Char} : Weak t y → Weak (c :: t) (c :: y)
  | subst {a b : Char} {t y : List Char} : pyIsSpace a = true →
      pyIsSpace b = true → Weak t y → Weak (a :: t) (b :: y)
  | del {a : Char} {t y : List Char} : pyIsSpace a = true →
      Weak t y → Weak (a :: t) y

theorem Weak.rfl : ∀ (t : List Char), Weak t t := by
  intro t
  induction t with
  | nil => exact Weak.nil
  | cons c t ih => exact Weak.keep c ih

theorem Weak.append : ∀ {t1 y1 t2 y2 : List Char},
    Weak t1 y1 → Weak t2 y2 → Weak (t1 ++ t2) (y1 ++ y2) := by
  intro t1 y1 t2 y2 h1 h2
  induction h1 with
  | nil => exact h2
  | keep c _ ih => exact Weak.keep c ih
  | subst ha hb _ ih => exact Weak.subst ha hb ih
  | del ha _ ih => exact Weak.del ha ih

theorem Weak.all_space_nil : ∀ {t : List Char}, (∀ c ∈ t, pyIsSpace c = true) →
    Weak t [] := by
  intro t h
  induction t with
  | nil => exact Weak.nil
  | cons c t ih =>
    exact Weak.del (h c (by simp)) (ih (fun x hx => h x (by simp [hx])))

/-- The automaton never gets more dangerous along a `Weak`-image: if `t`
has no tag match from state `s`, neither has `y`. -/
theorem weak_tagRun : ∀ {t y : List Char}, Weak t y → ∀ s : TagSt,
    rank (tagRun s y) ≤ rank (tagRun s t) := by
  intro t y h
  induction h with
  | nil => intro s; exact Nat.le_refl _
  | keep c _ ih =>
    intro s
    rw [tagRun_cons, tagRun_cons]
    exact ih (tagStep s c)
  | subst ha hb _ ih =>
    intro s
    rw [tagRun_cons, tagRun_cons]
    rw [tagStep_other_eq s (pyIsSpace_ne_lt hb) (pyIsSpace_ne_gt hb)
      (pyIsSpace_ne_lt ha) (pyIsSpace_ne_gt ha)]
    exact ih _
  | del ha _ ih =>
    intro s
    rw [tagRun_cons]
    exact Nat.le_trans (ih s)
      (tagRun_mono (rank_le_tagStep_other s (pyIsSpace_ne_lt ha) (pyIsSpace_ne_gt ha)) _)

/-! The automaton accepts exactly the strings on which `tagSub` and
`brSub` are the identity. -/

theorem splitGt_none_iff : ∀ {cs : List Char}, splitGt cs = none ↔ '>' ∉ cs := by
  intro cs
  induction cs with
  | nil => simp [splitGt]
  | cons c rest ih =>
    by_cases hc : c = '>'
    · subst hc; simp [splitGt]
    · simp only [splitGt, if_neg hc, Option.map_eq_none', List.mem_cons, ih]
      constructor
      · intro h hmem
        rcases hmem with he | hm
        · exact hc he.symm
        · exact h hm
      · intro h
        exact fun hm => h (Or.inr hm)

theorem splitGt_inner_nil : ∀ {cs after : List Char},
    splitGt cs = some ([], after) → cs = '>' :: after := by
  intro cs after h
  cases cs with
  | nil => simp [splitGt] at h
  | cons c rest =>
    by_cases hc : c = '>'
    · subst hc
      simp [splitGt] at h
      rw [h]
    · simp only [splitGt, if_neg hc, Option.map_eq_some'] at h
      obtain ⟨p, _, hpe⟩ := h
      injection hpe with h1 _
      exact absurd h1 (by simp)

theorem tagRun_opn_gt : ∀ {cs : List Char}, '>' ∈ cs → tagRun .opn cs = .bad := by
  intro cs h
  induction cs with
  | nil => simp at h
  | cons c rest ih =>
    by_cases hc : c = '>'
    · subst hc
      rw [tagRun_cons]
      show tagRun .bad rest = .bad
      exact tagRun_bad rest
    · rcases List.mem_cons.mp h with he | hm
      · exact absurd he.symm hc
      · rw [tagRun_cons]
        show tagRun (if c = '>' then TagSt.bad else TagSt.opn) rest = .bad
        rw [if_neg hc]
        exact ih hm

theorem tagStep_ne_bad {s : TagSt} {c : Char} (hs : s ≠ .bad) (hc : c ≠ '>') :
    tagStep s c ≠ .bad := by
  cases s with
  | safe => simp only [tagStep]; split_ifs <;> simp
  | just => simp only [tagStep]; split_ifs <;> simp
  | opn => simp only [tagStep]; rw [if_neg hc]; simp
  | bad => exact absurd rfl hs

theorem tagRun_no_gt_ne_bad : ∀ {cs : List Char}, '>' ∉ cs →
    ∀ {s : TagSt}, s ≠ .bad → tagRun s cs ≠ .bad := by
  intro cs
  induction cs with
  | nil => intro _ s hs; exact hs
  | cons c rest ih =>
    intro h s hs
    rw [tagRun_cons]
    have hc : c ≠ '>' := fun he => h (he ▸ List.mem_cons_self c rest)
    exact ih (fun hm => h (List.mem_cons_of_mem c hm)) (tagStep_ne_bad hs hc)

/-- From a pending `<` that completes no match, the rest either has no `>`
at all or starts with one (adjacent `<>`). -/
theorem noTag_cases {rest : List Char} (h : tagRun .just rest ≠ .bad) :
    splitGt rest = none ∨ ∃ r, rest = '>' :: r := by
  cases rest with
  | nil => left; rfl
  | cons a r =>
    by_cases ha : a = '>'
    · right; exact ⟨r, by rw [ha]⟩
    · left
      rw [tagRun_cons] at h
      have hstep : tagStep .just a = .opn := by simp [tagStep, ha]
      rw [hstep] at h
      have hgr : '>' ∉ r := fun hm => h (tagRun_opn_gt hm)
      refine splitGt_none_iff.mpr ?_
      simp only [List.mem_cons]
      rintro (he | hm)
      · exact ha he.symm
      · exact hgr hm

theorem gt_not_mem_tagSub : ∀ (n : Nat) (cs : List Char), cs.length ≤ n →
    '>' ∉ cs → '>' ∉ tagSub cs := by
  intro n
  induction n with
  | zero =>
    intro cs hlen _
    have : cs = [] := List.length_eq_zero.mp (Nat.le_zero.mp hlen)
    subst this
    simp [tagSub_nil]
  | succ n ih =>
    intro cs hlen hgt
    cases cs with
    | nil => simp [tagSub_nil]
    | cons c rest =>
      have hc : c ≠ '>' := fun he => hgt (he ▸ List.mem_cons_self c rest)
      have hgr : '>' ∉ rest := fun hm => hgt (List.mem_cons_of_mem c hm)
      simp only [List.length_cons, Nat.succ_le_succ_iff] at hlen
      rw [tagSub_cons]
      by_cases hlt : c = '<'
      · rw [if_pos hlt]
        have hnone : splitGt rest = none := splitGt_none_iff.mpr hgr
        rw [hnone]
        intro hmem
        rcases List.mem_cons.mp hmem with he | hm
        · exact hc he.symm
        · exact ih rest hlen hgr hm
      · rw [if_neg hlt]
        intro hmem
        rcases List.mem_cons.mp hmem with he | hm
        · exact hc he.symm
        · exact ih rest hlen hgr hm

/-- The output of `_TAG_RE.sub` contains no tag match. -/
theorem tagSub_noTag : ∀ (n : Nat) (cs : List Char), cs.length ≤ n →
    tagRun .safe (tagSub cs) ≠ .bad := by
  intro n
  induction n with
  | zero =>
    intro cs hlen
    have : cs = [] := List.length_eq_zero.mp (Nat.le_zero.mp hlen)
    subst this
    rw [tagSub_nil, tagRun_nil]
    simp
  | succ n ih =>
    intro cs hlen
    cases cs with
    | nil => rw [tagSub_nil, tagRun_nil]; simp
    | cons c rest =>
      simp only [List.length_cons, Nat.succ_le_succ_iff] at hlen
      rw [tagSub_cons]
      by_cases hlt : c = '<'
      · rw [if_pos hlt]
        cases hsp : splitGt rest with
        | some p =>
          obtain ⟨inner, after⟩ := p
          simp only
          by_cases hin : inner = []
          · rw [if_pos hin]
            subst hin
            have hr : rest = '>' :: after := splitGt_inner_nil hsp
            subst hlt
            rw [hr, tagRun_cons]
            have h1 : tagStep .safe '<' = .just := by simp [tagStep]
            rw [h1]
            have h2 : tagSub ('>' :: after) = '>' :: tagSub after := by
              rw [tagSub_cons, if_neg (by decide)]
            rw [h2, tagRun_cons]
            have h3 : tagStep .just '>' = .safe := by simp [tagStep]
            rw [h3]
            have hlen2 : after.length ≤ n := by
              rw [hr] at hlen
              simp at hlen
              omega
            exact ih after hlen2
          · rw [if_neg hin, tagRun_cons]
            have h1 : tagStep .safe ' ' = .safe := by simp [tagStep]
            rw [h1]
            have hlen2 : after.length ≤ n := by
              have := splitGt_length hsp
              omega
            exact ih after hlen2
        | none =>
          simp only
          rw [tagRun_cons]
          have h1 : tagStep .safe c = .just := by subst hlt; simp [tagStep]
          rw [h1]
          have hgr : '>' ∉ rest := splitGt_none_iff.mp hsp
          exact tagRun_no_gt_ne_bad (gt_not_mem_tagSub n rest hlen hgr) (by simp)
      · rw [if_neg hlt, tagRun_cons]
        have h1 : tagStep .safe c = .safe := by simp [tagStep, hlt]
        rw [h1]
        exact ih rest hlen

theorem rank_lt_of_ne_bad {s : TagSt} (h : s ≠ .bad) : rank s ≤ 2 := by
  cases s <;> simp_all [rank]

theorem ne_bad_of_rank_le {a b : TagSt} (hle : rank a ≤ rank b) (h : b ≠ .bad) :
    a ≠ .bad := by
  intro he
  subst he
  cases b <;> simp_all [rank]

/-- From `safe`, a tail reached after `<` that completes no match is
itself match-free. -/
theorem noTag_tail {rest : List Char} (h : tagRun .just rest ≠ .bad) :
    tagRun .safe rest ≠ .bad :=
  ne_bad_of_rank_le (tagRun_mono (by simp [rank]) rest) h

theorem tagSub_id_of_noTag : ∀ (n : Nat) (cs : List Char), cs.length ≤ n →
    tagRun .safe cs ≠ .bad → tagSub cs = cs := by
  intro n
  induction n with
  | zero =>
    intro cs hlen _
    have : cs = [] := List.length_eq_zero.mp (Nat.le_zero.mp hlen)
    subst this
    exact tagSub_nil
  | succ n ih =>
    intro cs hlen h
    cases cs with
    | nil => exact tagSub_nil
    | cons c rest =>
      simp only [List.length_cons, Nat.succ_le_succ_iff] at hlen
      rw [tagRun_cons] at h
      rw [tagSub_cons]
      by_cases hlt : c = '<'
      · rw [if_pos hlt]
        have hstep : tagStep .safe c = .just := by subst hlt; simp [tagStep]
        rw [hstep] at h
        rcases noTag_cases h with hnone | ⟨r, hr⟩
        · rw [hnone]
          rw [ih rest hlen (noTag_tail h)]
        · have hsp : splitGt rest = some ([], r) := by
            rw [hr]
            simp [splitGt]
          rw [hsp]
          simp only
          rw [if_pos trivial]
          rw [ih rest hlen (noTag_tail h)]
      · rw [if_neg hlt]
        have hstep : tagStep .safe c = .safe := by simp [tagStep, hlt]
        rw [hstep] at h
        rw [ih rest hlen h]

theorem brLen_structure {cs : List Char} {k : Nat} (h : brLen cs = some k) :
    cs.head? = some '\\' ∧ '>' ∈ cs.drop 1 := by
  simp only [brLen] at h
  set r1 := cs.drop 1 with hr1
  set s1 := countS r1 with hs1
  set r2 := r1.drop s1 with hr2
  set r3 := r2.drop 2 with hr3
  set r4 := r3.drop 1 with hr4
  set s2 := countS r4 with hs2
  set r5 := r4.drop s2 with hr5
  set slash := (if r5.head? = some '/' then (1 : Nat) else 0) with hsl
  set r6 := r5.drop slash with hr6
  set r7 := r6.drop 1 with hr7
  set s3 := countS r7 with hs3
  split_ifs at h with h1 h2 h3 h4 h5
  refine ⟨h1, ?_⟩
  have m1 : '>' ∈ r7.drop s3 := by
    obtain ⟨ys, hys⟩ := List.head?_eq_some_iff.mp h5
    rw [hys]
    exact List.mem_cons_self _ _
  have m2 : '>' ∈ r7 := List.mem_of_mem_drop m1
  rw [hr7] at m2
  have m3 : '>' ∈ r6 := List.mem_of_mem_drop m2
  rw [hr6] at m3
  have m4 : '>' ∈ r5 := List.mem_of_mem_drop m3
  rw [hr5] at m4
  have m5 : '>' ∈ r4 := List.mem_of_mem_drop m4
  rw [hr4] at m5
  have m6 : '>' ∈ r3 := List.mem_of_mem_drop m5
  rw [hr3] at m6
  have m7 : '>' ∈ r2 := List.mem_of_mem_drop m6
  rw [hr2] at m7
  exact List.mem_of_mem_drop m7

/-- Every match of the (buggy) `_BR_RE` pattern is in particular a
`<`-then-`>` shape with non-empty inner part, so a match-free string is
also `brSub`-invariant. -/
theorem brSub_id_of_noTag : ∀ (n : Nat) (cs : List Char), cs.length ≤ n →
    tagRun .safe cs ≠ .bad → brSub cs = cs := by
  intro n
  induction n with
  | zero =>
    intro cs hlen _
    have : cs = [] := List.length_eq_zero.mp (Nat.le_zero.mp hlen)
    subst this
    exact brSub_nil
  | succ n ih =>
    intro cs hlen h
    cases cs with
    | nil => exact brSub_nil
    | cons c rest =>
      simp only [List.length_cons, Nat.succ_le_succ_iff] at hlen
      rw [tagRun_cons] at h
      rw [brSub_cons]
      by_cases hlt : c = '<'
      · rw [if_pos hlt]
        have hstep : tagStep .safe c = .just := by subst hlt; simp [tagStep]
        rw [hstep] at h
        have hnone : brLen rest = none := by
          cases hbl : brLen rest with
          | none => rfl
          | some k =>
            exfalso
            obtain ⟨hh, hgt⟩ := brLen_structure hbl
            obtain ⟨ys, hys⟩ := List.head?_eq_some_iff.mp hh
            rw [hys] at h hgt
            rw [tagRun_cons] at h
            have hst2 : tagStep .just '\\' = .opn := by simp [tagStep]
            rw [hst2] at h
            simp only [List.drop_succ_cons, List.drop_zero] at hgt
            exact h (tagRun_opn_gt hgt)
        rw [hnone]
        simp only
        rw [ih rest hlen (noTag_tail h)]
      · rw [if_neg hlt]
        have hstep : tagStep .safe c = .safe := by simp [tagStep, hlt]
        rw [hstep] at h
        rw [ih rest hlen h]

/-! Whitespace normalization: structure of `pySplit`/`joinSp` and the
`Weak` relation between a string and its normalized form. -/

theorem dropWhile_head_false {p : α → Bool} :
    ∀ {l : List α} {b : α} {r : List α}, l.dropWhile p = b :: r → p b = false := by
  intro l
  induction l with
  | nil => intro b r h; simp [List.dropWhile] at h
  | cons a l ih =>
    intro b r h
    by_cases ha : p a
    · rw [List.dropWhile_cons_of_pos ha] at h
      exact ih h
    · rw [List.dropWhile_cons_of_neg ha] at h
      injection h with h1 _
      subst h1
      simp [ha]

theorem pySplit_nil_allSpace : ∀ (n : Nat) (cs : List Char), cs.length ≤ n →
    pySplit cs = [] → ∀ c ∈ cs, pyIsSpace c = true := by
  intro n
  induction n with
  | zero =>
    intro cs hlen _
    have : cs = [] := List.length_eq_zero.mp (Nat.le_zero.mp hlen)
    subst this
    simp
  | succ n ih =>
    intro cs hlen h
    cases cs with
    | nil => simp
    | cons c rest =>
      simp only [List.length_cons, Nat.succ_le_succ_iff] at hlen
      rw [pySplit_cons] at h
      by_cases hc : pyIsSpace c
      · rw [if_pos hc] at h
        intro x hx
        rcases List.mem_cons.mp hx with he | hm
        · subst he; exact hc
        · exact ih rest hlen h x hm
      · rw [if_neg hc] at h
        exact absurd h (by simp)

theorem pySplit_words_good : ∀ (n : Nat) (l : List Char), l.length ≤ n →
    ∀ w ∈ pySplit l, w ≠ [] ∧ ∀ c ∈ w, pyIsSpace c = false := by
  intro n
  induction n with
  | zero =>
    intro l hlen
    have : l = [] := List.length_eq_zero.mp (Nat.le_zero.mp hlen)
    subst this
    simp [pySplit_nil]
  | succ n ih =>
    intro l hlen w hw
    cases l with
    | nil => simp [pySplit_nil] at hw
    | cons c rest =>
      simp only [List.length_cons, Nat.succ_le_succ_iff] at hlen
      rw [pySplit_cons] at hw
      by_cases hc : pyIsSpace c
      · rw [if_pos hc] at hw
        exact ih rest hlen w hw
      · rw [if_neg hc] at hw
        rcases List.mem_cons.mp hw with he | hm
        · subst he
          refine ⟨by simp, ?_⟩
          intro x hx
          rcases List.mem_cons.mp hx with he2 | hm2
          · subst he2; simpa using hc
          · have := List.mem_takeWhile_imp hm2
            simpa using this
        · have hd := length_dropWhile_le (fun x => !pyIsSpace x) rest
          exact ih (rest.dropWhile (fun x => !pyIsSpace x)) (by omega) w hm

/-- Every character of a space-joined word list is in one of the words or
is the inserted space. -/
theorem mem_joinSp : ∀ {ws : List (List Char)} {c : Char}, c ∈ joinSp ws →
    (∃ w ∈ ws, c ∈ w) ∨ c = ' ' := by
  intro ws
  induction ws with
  | nil => intro c h; simp [joinSp] at h
  | cons w ws ih =>
    intro c h
    cases ws with
    | nil =>
      left
      exact ⟨w, by simp, by simpa [joinSp] using h⟩
    | cons x xs =>
      have : joinSp (w :: x :: xs) = w ++ ' ' :: joinSp (x :: xs) := rfl
      rw [this] at h
      rcases List.mem_append.mp h with hm | hm
      · exact Or.inl ⟨w, by simp, hm⟩
      · rcases List.mem_cons.mp hm with he | hm2
        · exact Or.inr he
        · rcases ih hm2 with ⟨w2, hw2, hc2⟩ | he
          · exact Or.inl ⟨w2, by simp [hw2], hc2⟩
          · exact Or.inr he

theorem joinSp_ne_nil {ws : List (List Char)} (hne : ws ≠ [])
    (h : ∀ w ∈ ws, w ≠ []) : joinSp ws ≠ [] := by
  cases ws with
  | nil => exact absurd rfl hne
  | cons w ws =>
    cases ws with
    | nil => simpa [joinSp] using h w (by simp)
    | cons x xs =>
      show w ++ ' ' :: joinSp (x :: xs) ≠ []
      simp

theorem normLine_empty_allSpace {l : List Char} (h : normLine l = []) :
    ∀ c ∈ l, pyIsSpace c = true := by
  have hsp : pySplit l = [] := by
    by_contra hne
    have hgood := pySplit_words_good l.length l (le_refl _)
    exact joinSp_ne_nil hne (fun w hw => (hgood w hw).1) h
  exact pySplit_nil_allSpace l.length l (le_refl _) hsp

/-- Each line relates to its normalized form by `Weak`. -/
theorem weak_normLine : ∀ (n : Nat) (l : List Char), l.length ≤ n →
    Weak l (normLine l) := by
  intro n
  induction n with
  | zero =>
    intro l hlen
    have : l = [] := List.length_eq_zero.mp (Nat.le_zero.mp hlen)
    subst this
    exact Weak.nil
  | succ n ih =>
    intro l hlen
    cases l with
    | nil => exact Weak.nil
    | cons c rest =>
      simp only [List.length_cons, Nat.succ_le_succ_iff] at hlen
      show Weak (c :: rest) (joinSp (pySplit (c :: rest)))
      rw [pySplit_cons]
      by_cases hc : pyIsSpace c
      · rw [if_pos hc]
        exact Weak.del hc (ih rest hlen)
      · rw [if_neg hc]
        have hsplit := List.takeWhile_append_dropWhile
          (p := fun x => !pyIsSpace x) (l := rest)
        set w' := rest.takeWhile (fun x => !pyIsSpace x) with hw'
        set rem := rest.dropWhile (fun x => !pyIsSpace x) with hrem
        have hrest : rest = w' ++ rem := hsplit.symm
        cases hpr : pySplit rem with
        | nil =>
          have hall : ∀ x ∈ rem, pyIsSpace x = true := by
            have hd := length_dropWhile_le (fun x => !pyIsSpace x) rest
            rw [← hrem] at hd
            exact pySplit_nil_allSpace n rem (by omega) hpr
          show Weak (c :: rest) (joinSp [c :: w'])
          show Weak (c :: rest) (c :: w')
          rw [hrest]
          have hap := Weak.append (Weak.rfl (c :: w')) (Weak.all_space_nil hall)
          simpa using hap
        | cons x xs =>
          have hremne : rem ≠ [] := by
            intro he
            rw [he] at hpr
            simp [pySplit_nil] at hpr
          obtain ⟨d, rem', hd⟩ := List.exists_cons_of_ne_nil hremne
          have hdspace : pyIsSpace d = true := by
            have := dropWhile_head_false (hd ▸ hrem.symm)
            simpa using this
          have hps : pySplit rem = pySplit rem' := by
            rw [hd, pySplit_cons, if_pos hdspace]
          show Weak (c :: rest) (joinSp ((c :: w') :: x :: xs))
          have hjs : joinSp ((c :: w') :: x :: xs) =
              (c :: w') ++ ' ' :: joinSp (x :: xs) := rfl
          rw [hjs]
          rw [hrest, hd]
          have hsh : (c :: (w' ++ d :: rem')) = (c :: w') ++ d :: rem' := by simp
          rw [hsh]
          apply Weak.append (Weak.rfl (c :: w'))
          have hlen2 : rem'.length ≤ n := by
            have hdl := length_dropWhile_le (fun x => !pyIsSpace x) rest
            rw [← hrem] at hdl
            rw [hd] at hdl
            simp at hdl
            omega
          have hw2 : Weak rem' (joinSp (pySplit rem')) := ih rem' hlen2
          rw [← hps, hpr] at hw2
          exact Weak.subst hdspace (by decide) hw2

/-! Line-level structure of `wsNorm`. -/

def wsLines (cs : List Char) : List (List Char) :=
  ((pySplitlines cs).map normLine).filter (fun l => l ≠ [])

theorem wsNorm_eq_joinNl (cs : List Char) : wsNorm cs = joinNl (wsLines cs) := rfl

theorem joinNl_ne_nil {x : List Char} (hx : x ≠ []) (xs : List (List Char)) :
    joinNl (x :: xs) ≠ [] := by
  cases xs with
  | nil => simpa [joinNl] using hx
  | cons y ys =>
    show x ++ '\n' :: joinNl (y :: ys) ≠ []
    simp

theorem wsLines_cons_of_split {cs line : List Char} {L : List (List Char)}
    (h : pySplitlines cs = line :: L) :
    wsLines cs = if normLine line = [] then (L.map normLine).filter (fun l => l ≠ [])
      else normLine line :: (L.map normLine).filter (fun l => l ≠ []) := by
  rw [wsLines, h, List.map_cons, List.filter_cons]
  by_cases hnl : normLine line = []
  · simp [hnl]
  · simp [hnl]

/-- The boundary character at the head of the dropped part. -/
theorem boundary_head {cs b : Char} {t r2 : List Char}
    (h : (List.dropWhile (fun x => !isLineBreak x) (cs :: t)) = b :: r2) :
    isLineBreak b = true := by
  have := dropWhile_head_false h
  simpa using this

/-- If the whole normalized output is empty, the input was all
whitespace. -/
theorem wsNorm_empty_allSpace : ∀ (n : Nat) (cs : List Char), cs.length ≤ n →
    wsNorm cs = [] → ∀ c ∈ cs, pyIsSpace c = true := by
  intro n
  induction n with
  | zero =>
    intro cs hlen _
    have : cs = [] := List.length_eq_zero.mp (Nat.le_zero.mp hlen)
    subst this
    simp
  | succ n ih =>
    intro cs hlen h x hx
    cases cs with
    | nil => simp at hx
    | cons c rest =>
      simp only [List.length_cons, Nat.succ_le_succ_iff] at hlen
      have hsplit := List.takeWhile_append_dropWhile
        (p := fun ch => !isLineBreak ch) (l := c :: rest)
      have hps := pySplitlines_cons c rest
      cases hr : (c :: rest).dropWhile (fun ch => !isLineBreak ch) with
      | nil =>
        rw [hr] at hps hsplit
        simp only at hps
        have hws := wsLines_cons_of_split hps
        rw [List.append_nil] at hsplit
        by_cases hnl : normLine ((c :: rest).takeWhile (fun ch => !isLineBreak ch)) = []
        · exact normLine_empty_allSpace hnl x (by rw [hsplit]; exact hx)
        · exfalso
          rw [wsNorm_eq_joinNl, hws, if_neg hnl] at h
          simp only [List.map_nil, List.filter_nil] at h
          exact joinNl_ne_nil hnl [] h
      | cons b r2 =>
        rw [hr] at hps hsplit
        simp only at hps
        have hbspace : pyIsSpace b = true := pyIsSpace_of_isLineBreak (boundary_head hr)
        have hr2len : r2.length ≤ rest.length := by
          have := length_dropWhile_le (fun ch => !isLineBreak ch) (c :: rest)
          rw [hr] at this
          simp at this
          omega
        by_cases hcr : b = '\r' ∧ r2.head? = some '\n'
        · rw [if_pos hcr] at hps
          obtain ⟨ys, hys⟩ := List.head?_eq_some_iff.mp hcr.2
          have hws := wsLines_cons_of_split hps
          rw [wsNorm_eq_joinNl, hws] at h
          by_cases hnl : normLine ((c :: rest).takeWhile (fun ch => !isLineBreak ch)) = []
          · rw [if_pos hnl] at h
            have hys' : r2.drop 1 = ys := by rw [hys]; rfl
            have hrest' : ∀ y ∈ ys, pyIsSpace y = true := by
              intro y hy
              refine ih ys ?_ ?_ y hy
              · rw [hys] at hr2len; simp at hr2len; omega
              · rw [wsNorm_eq_joinNl, ← hys']
                exact h
            have hlineall := normLine_empty_allSpace hnl
            rw [← hsplit] at hx
            rcases List.mem_append.mp hx with hm | hm
            · exact hlineall x hm
            · rcases List.mem_cons.mp hm with he | hm2
              · subst he; exact hbspace
              · rw [hys] at hm2
                rcases List.mem_cons.mp hm2 with he2 | hm3
                · subst he2; decide
                · exact hrest' x hm3
          · rw [if_neg hnl] at h
            exact absurd h (joinNl_ne_nil hnl _)
        · rw [if_neg hcr] at hps
          have hws := wsLines_cons_of_split hps
          rw [wsNorm_eq_joinNl, hws] at h
          by_cases hnl : normLine ((c :: rest).takeWhile (fun ch => !isLineBreak ch)) = []
          · rw [if_pos hnl] at h
            have hrest' : ∀ y ∈ r2, pyIsSpace y = true := by
              intro y hy
              exact ih r2 (by omega) h y hy
            have hlineall := normLine_empty_allSpace hnl
            rw [← hsplit] at hx
            rcases List.mem_append.mp hx with hm | hm
            · exact hlineall x hm
            · rcases List.mem_cons.mp hm with he | hm2
              · subst he; exact hbspace
              · exact hrest' x hm2
          · rw [if_neg hnl] at h
            exact absurd h (joinNl_ne_nil hnl _)

/-- The whitespace normalization of `clean` is a `Weak`-image: it keeps
non-whitespace characters in order, and only replaces or deletes
whitespace. -/
theorem weak_wsNorm : ∀ (n : Nat) (cs : List Char), cs.length ≤ n →
    Weak cs (wsNorm cs) := by
  intro n
  induction n with
  | zero =>
    intro cs hlen
    have : cs = [] := List.length_eq_zero.mp (Nat.le_zero.mp hlen)
    subst this
    exact Weak.nil
  | succ n ih =>
    intro cs hlen
    cases cs with
    | nil => exact Weak.nil
    | cons c rest =>
      simp only [List.length_cons, Nat.succ_le_succ_iff] at hlen
      have hsplit := List.takeWhile_append_dropWhile
        (p := fun ch => !isLineBreak ch) (l := c :: rest)
      have hps := pySplitlines_cons c rest
      set line := (c :: rest).takeWhile (fun ch => !isLineBreak ch) with hline
      cases hr : (c :: rest).dropWhile (fun ch => !isLineBreak ch) with
      | nil =>
        rw [hr] at hps hsplit
        simp only at hps
        have hws := wsLines_cons_of_split hps
        rw [List.append_nil] at hsplit
        rw [wsNorm_eq_joinNl, hws]
        by_cases hnl : normLine line = []
        · rw [if_pos hnl]
          simp only [List.map_nil, List.filter_nil]
          show Weak (c :: rest) (joinNl [])
          rw [← hsplit]
          exact Weak.all_space_nil (normLine_empty_allSpace hnl)
        · rw [if_neg hnl]
          simp only [List.map_nil, List.filter_nil]
          show Weak (c :: rest) (normLine line)
          rw [← hsplit]
          exact weak_normLine line.length line (le_refl _)
      | cons b r2 =>
        rw [hr] at hps hsplit
        simp only at hps
        have hbspace : pyIsSpace b = true := pyIsSpace_of_isLineBreak (boundary_head hr)
        have hr2len : r2.length ≤ rest.length := by
          have := length_dropWhile_le (fun ch => !isLineBreak ch) (c :: rest)
          rw [hr] at this
          simp at this
          omega
        by_cases hcr : b = '\r' ∧ r2.head? = some '\n'
        · rw [if_pos hcr] at hps
          obtain ⟨ys, hys⟩ := List.head?_eq_some_iff.mp hcr.2
          have hys' : r2.drop 1 = ys := by rw [hys]; rfl
          have hyslen : ys.length ≤ n := by
            rw [hys] at hr2len; simp at hr2len; omega
          have hws := wsLines_cons_of_split hps
          rw [wsNorm_eq_joinNl, hws, hys']
          rw [← hsplit, hys]
          by_cases hnl : normLine line = []
          · rw [if_pos hnl]
            refine Weak.append (Weak.all_space_nil (normLine_empty_allSpace hnl)) ?_
            exact Weak.del hbspace (Weak.del (by decide)
              (wsNorm_eq_joinNl ys ▸ ih ys hyslen))
          · rw [if_neg hnl]
            cases hF : ((pySplitlines ys).map normLine).filter (fun l => l ≠ []) with
            | nil =>
              show Weak (line ++ b :: '\n' :: ys) (joinNl [normLine line])
              show Weak (line ++ b :: '\n' :: ys) (normLine line)
              have hysall : ∀ y ∈ ys, pyIsSpace y = true :=
                wsNorm_empty_allSpace n ys hyslen
                  (by rw [wsNorm_eq_joinNl, wsLines, hF]; rfl)
              have h2 : Weak (b :: '\n' :: ys) ([] : List Char) :=
                Weak.del hbspace (Weak.del (by decide) (Weak.all_space_nil hysall))
              have := Weak.append (weak_normLine line.length line (le_refl _)) h2
              simpa using this
            | cons f fs =>
              show Weak (line ++ b :: '\n' :: ys)
                (joinNl (normLine line :: f :: fs))
              show Weak (line ++ b :: '\n' :: ys)
                (normLine line ++ '\n' :: joinNl (f :: fs))
              refine Weak.append (weak_normLine line.length line (le_refl _)) ?_
              refine Weak.subst hbspace (by decide) ?_
              refine Weak.del (by decide) ?_
              have h3 := ih ys hyslen
              rw [wsNorm_eq_joinNl, wsLines, hF] at h3
              exact h3
        · rw [if_neg hcr] at hps
          have hws := wsLines_cons_of_split hps
          rw [wsNorm_eq_joinNl, hws]
          rw [← hsplit]
          by_cases hnl : normLine line = []
          · rw [if_pos hnl]
            refine Weak.append (Weak.all_space_nil (normLine_empty_allSpace hnl)) ?_
            exact Weak.del hbspace (wsNorm_eq_joinNl r2 ▸ ih r2 (by omega))
          · rw [if_neg hnl]
            cases hF : ((pySplitlines r2).map normLine).filter (fun l => l ≠ []) with
            | nil =>
              show Weak (line ++ b :: r2) (joinNl [normLine line])
              show Weak (line ++ b :: r2) (normLine line)
              have hr2all : ∀ y ∈ r2, pyIsSpace y = true :=
                wsNorm_empty_allSpace n r2 (by omega)
                  (by rw [wsNorm_eq_joinNl, wsLines, hF]; rfl)
              have h2 : Weak (b :: r2) ([] : List Char) :=
                Weak.del hbspace (Weak.all_space_nil hr2all)
              have := Weak.append (weak_normLine line.length line (le_refl _)) h2
              simpa using this
            | cons f fs =>
              show Weak (line ++ b :: r2) (joinNl (normLine line :: f :: fs))
              show Weak (line ++ b :: r2) (normLine line ++ '\n' :: joinNl (f :: fs))
              refine Weak.append (weak_normLine line.length line (le_refl _)) ?_
              refine Weak.subst hbspace (by decide) ?_
              have h3 := ih r2 (by omega)
              rw [wsNorm_eq_joinNl, wsLines, hF] at h3
              exact h3

/-! Whitespace normalization is idempotent: splitting a space-joined list
of clean words gives the words back, and likewise for lines. -/

theorem pySplit_word {w : List Char} (hne : w ≠ [])
    (hw : ∀ c ∈ w, pyIsSpace c = false) : pySplit w = [w] := by
  obtain ⟨c, w', rfl⟩ := List.exists_cons_of_ne_nil hne
  rw [pySplit_cons, if_neg (by simp [hw c (by simp)])]
  have h1 : w'.takeWhile (fun x => !pyIsSpace x) = w' :=
    takeWhile_all (by simp; intro x hx; exact hw x (by simp [hx]))
  have h2 : w'.dropWhile (fun x => !pyIsSpace x) = [] :=
    dropWhile_all (by simp; intro x hx; exact hw x (by simp [hx]))
  rw [h1, h2, pySplit_nil]

theorem pySplit_joinSp : ∀ (ws : List (List Char)),
    (∀ w ∈ ws, w ≠ [] ∧ ∀ c ∈ w, pyIsSpace c = false) →
    pySplit (joinSp ws) = ws := by
  intro ws
  induction ws with
  | nil => intro _; rfl
  | cons w ws ih =>
    intro h
    obtain ⟨hne, hw⟩ := h w (by simp)
    cases ws with
    | nil =>
      show pySplit w = [w]
      exact pySplit_word hne hw
    | cons x xs =>
      show pySplit (w ++ ' ' :: joinSp (x :: xs)) = w :: x :: xs
      obtain ⟨c, w', rfl⟩ := List.exists_cons_of_ne_nil hne
      rw [List.cons_append, pySplit_cons, if_neg (by simp [hw c (by simp)])]
      have hall : ∀ a ∈ w', (fun x => !pyIsSpace x) a = true := by
        simp
        intro a ha
        exact hw a (by simp [ha])
      rw [List.takeWhile_append_of_pos hall, List.dropWhile_append_of_pos hall]
      have ht : (' ' :: joinSp (x :: xs)).takeWhile (fun x => !pyIsSpace x) = [] := by
        rw [List.takeWhile_cons_of_neg (by decide)]
      have hd : (' ' :: joinSp (x :: xs)).dropWhile (fun x => !pyIsSpace x) =
          ' ' :: joinSp (x :: xs) := by
        rw [List.dropWhile_cons_of_neg (by decide)]
      rw [ht, hd, List.append_nil, pySplit_cons, if_pos (by decide)]
      have := ih (fun v hv => h v (by simp [hv]))
      rw [this]

theorem normLine_chars : ∀ {l : List Char} {c : Char}, c ∈ normLine l →
    (pyIsSpace c = false ∨ c = ' ') := by
  intro l c h
  rcases mem_joinSp h with ⟨w, hw, hc⟩ | he
  · exact Or.inl ((pySplit_words_good l.length l (le_refl _) w hw).2 c hc)
  · exact Or.inr he

theorem normLine_no_break {l : List Char} {c : Char} (h : c ∈ normLine l) :
    isLineBreak c = false := by
  rcases normLine_chars h with hs | he
  · by_contra hb
    simp only [Bool.not_eq_false] at hb
    rw [pyIsSpace_of_isLineBreak hb] at hs
    exact Bool.noConfusion hs
  · subst he; decide

theorem normLine_idem (l : List Char) : normLine (normLine l) = normLine l := by
  show joinSp (pySplit (joinSp (pySplit l))) = joinSp (pySplit l)
  rw [pySplit_joinSp (pySplit l) (pySplit_words_good l.length l (le_refl _))]

theorem pySplitlines_line {l : List Char} (hne : l ≠ [])
    (hl : ∀ c ∈ l, isLineBreak c = false) : pySplitlines l = [l] := by
  obtain ⟨c, l', rfl⟩ := List.exists_cons_of_ne_nil hne
  rw [pySplitlines_cons]
  have hall : (c :: l').all (fun x => !isLineBreak x) = true := by
    rw [List.all_eq_true]
    intro a ha
    simp [hl a ha]
  rw [takeWhile_all hall, dropWhile_all hall]

theorem pySplitlines_joinNl : ∀ (ls : List (List Char)),
    (∀ l ∈ ls, l ≠ [] ∧ ∀ c ∈ l, isLineBreak c = false) →
    pySplitlines (joinNl ls) = ls := by
  intro ls
  induction ls with
  | nil => intro _; rfl
  | cons l ls ih =>
    intro h
    obtain ⟨hne, hl⟩ := h l (by simp)
    cases ls with
    | nil =>
      show pySplitlines l = [l]
      exact pySplitlines_line hne hl
    | cons x xs =>
      show pySplitlines (l ++ '\n' :: joinNl (x :: xs)) = l :: x :: xs
      obtain ⟨c, l', rfl⟩ := List.exists_cons_of_ne_nil hne
      rw [List.cons_append, pySplitlines_cons]
      have hall : ∀ a ∈ l', (fun x => !isLineBreak x) a = true := by
        intro a ha
        simp [hl a (by simp [ha])]
      have hc : (!isLineBreak c) = true := by
        simp [hl c (by simp)]
      have ht : List.takeWhile (fun x => !isLineBreak x)
          (c :: (l' ++ '\n' :: joinNl (x :: xs))) = c :: l' := by
        rw [List.takeWhile_cons_of_pos (p := fun x => !isLineBreak x) hc,
          List.takeWhile_append_of_pos hall,
          List.takeWhile_cons_of_neg (by decide), List.append_nil]
      have hd : List.dropWhile (fun x => !isLineBreak x)
          (c :: (l' ++ '\n' :: joinNl (x :: xs))) = '\n' :: joinNl (x :: xs) := by
        rw [List.dropWhile_cons_of_pos (p := fun x => !isLineBreak x) hc,
          List.dropWhile_append_of_pos hall,
          List.dropWhile_cons_of_neg (by decide)]
      simp only [ht, hd]
      rw [if_neg (by simp)]
      rw [ih (fun v hv => h v (by simp [hv]))]

/-- Whitespace normalization is idempotent. -/
theorem wsNorm_idem (t : List Char) : wsNorm (wsNorm t) = wsNorm t := by
  rw [wsNorm_eq_joinNl t]
  have hgood : ∀ l ∈ wsLines t, l ≠ [] ∧ ∀ c ∈ l, isLineBreak c = false := by
    intro l hl
    have h1 : l ≠ [] := by
      have := List.of_mem_filter hl
      simpa using this
    refine ⟨h1, ?_⟩
    have h2 := List.mem_of_mem_filter hl
    obtain ⟨l0, _, hl0⟩ := List.mem_map.mp h2
    intro c hc
    rw [← hl0] at hc
    exact normLine_no_break hc
  show joinNl (wsLines (joinNl (wsLines t))) = joinNl (wsLines t)
  rw [wsLines, pySplitlines_joinNl (wsLines t) hgood]
  have hmapid : (wsLines t).map normLine = wsLines t := by
    have hfx : ∀ l ∈ wsLines t, normLine l = l := by
      intro l hl
      have h2 := List.mem_of_mem_filter hl
      obtain ⟨l0, _, hl0⟩ := List.mem_map.mp h2
      rw [← hl0, normLine_idem]
    calc (wsLines t).map normLine = (wsLines t).map id :=
          List.map_congr_left (fun a ha => hfx a ha)
      _ = wsLines t := List.map_id _
  rw [hmapid]
  rw [List.filter_eq_self.mpr (fun l hl => by
    have := List.of_mem_filter hl
    simpa using this)]

/-! ### Claim C2 -/

/-- The output of `clean` contains no tag match. -/
theorem cleanCore_noTag (s : List Char) : tagRun .safe (cleanCore s) ≠ .bad := by
  have hA1 := tagSub_noTag (pyUnescape (brSub s)).length (pyUnescape (brSub s))
    (le_refl _)
  have hW := weak_wsNorm (tagSub (pyUnescape (brSub s))).length
    (tagSub (pyUnescape (brSub s))) (le_refl _)
  have hle := weak_tagRun hW TagSt.safe
  exact ne_bad_of_rank_le hle hA1

theorem cleanCore_idem (s : List Char) (h : '&' ∉ cleanCore s) :
    cleanCore (cleanCore s) = cleanCore s := by
  have hnt := cleanCore_noTag s
  show wsNorm (tagSub (pyUnescape (brSub (cleanCore s)))) = cleanCore s
  rw [brSub_id_of_noTag (cleanCore s).length (cleanCore s) (le_refl _) hnt]
  rw [show pyUnescape (cleanCore s) = cleanCore s from by
    simp only [pyUnescape, if_neg h]]
  rw [tagSub_id_of_noTag (cleanCore s).length (cleanCore s) (le_refl _) hnt]
  show wsNorm (wsNorm (tagSub (pyUnescape (brSub s)))) = cleanCore s
  exact wsNorm_idem _

/-- C2 (counterexample): `clean` decodes HTML entities once, so a second
pass decodes again: `clean("&amp;lt;") = "&lt;"` but
`clean(clean("&amp;lt;")) = "<"` — `clean(clean(x)) ≠ clean(x)`. -/
theorem clean_not_idempotent :
    clean_text (some (clean_text (some "&amp;lt;"))) ≠
      clean_text (some "&amp;lt;") := by
  decide

/-- C2 (amended): `clean` is idempotent on every string whose cleaned form
contains no `&` — re-decoding of HTML character references on the second
pass is the only source of non-idempotence.  The cleaned form has no
remaining `_TAG_RE` or (buggy) `_BR_RE` match, and the whitespace pass is
idempotent, so a second clean changes nothing further. -/
theorem clean_idempotent_amp_free (s : String)
    (h : '&' ∉ (clean_text (some s)).data) :
    clean_text (some (clean_text (some s))) = clean_text (some s) :=
  congrArg String.mk (cleanCore_idem s.data h)

/-- Witness for `clean_idempotent_amp_free` at `"a<br>b"`. -/
theorem clean_idempotent_amp_free_w :
    ('&' ∉ (clean_text (some "a<br>b")).data) ∧
    clean_text (some (clean_text (some "a<br>b"))) = clean_text (some "a<br>b") :=
  ⟨by decide, clean_idempotent_amp_free "a<br>b" (by decide)⟩

end JobBoard
